import Mathlib

/-!
Verification of the Xtream manager repository (src/main.py, src/xtream.py).

Python strings are modelled as lists of unicode characters (`Str`); the
functions below are shallow embeddings of the corresponding Python
functions, keeping their names.  Recursive scanners that advance by a
computed amount are given an explicit fuel argument, always called with
fuel at least the input length, so that every definition is structurally
recursive and evaluates inside the kernel.
-/

abbrev Str := List Char

/-- Character list of a string literal. -/
def str (s : String) : Str := s.data

/-- The double-quote character. -/
def dquote : Char := Char.ofNat 34

/-- The apostrophe character. -/
def apos : Char := Char.ofNat 39

/-- Python `str.isspace` / default `strip` character set. -/
def isPySpace (c : Char) : Bool :=
  c.toNat = 32 || c.toNat = 9 || c.toNat = 10 || c.toNat = 11 || c.toNat = 12 || c.toNat = 13 ||
  (28 ≤ c.toNat && c.toNat ≤ 31) || c.toNat = 133 || c.toNat = 160 || c.toNat = 5760 ||
  (8192 ≤ c.toNat && c.toNat ≤ 8202) || c.toNat = 8232 || c.toNat = 8233 || c.toNat = 8239 ||
  c.toNat = 8287 || c.toNat = 12288

/-- Line boundary characters of Python `str.splitlines`
(the pair CR LF is additionally treated as a single boundary). -/
def isLineBreakChar (c : Char) : Bool :=
  c.toNat = 10 || c.toNat = 13 || c.toNat = 11 || c.toNat = 12 || c.toNat = 28 ||
  c.toNat = 29 || c.toNat = 30 || c.toNat = 133 || c.toNat = 8232 || c.toNat = 8233

def isSlash (c : Char) : Bool := c = '/'

def isNewline (c : Char) : Bool := c = '\n'

/-- Python `s.lstrip(chars)`: drop leading characters satisfying `p`. -/
def pyLstrip (p : Char → Bool) (s : Str) : Str := s.dropWhile p

/-- Python `s.rstrip(chars)`: drop trailing characters satisfying `p`. -/
def pyRstrip (p : Char → Bool) (s : Str) : Str := (s.reverse.dropWhile p).reverse

/-- Python `s.strip()` with no argument: strip whitespace from both ends. -/
def pyStrip (s : Str) : Str := pyLstrip isPySpace (pyRstrip isPySpace s)

/-- ASCII-range model of Python `str.lower` applied to one character. -/
def pyLowerChar (c : Char) : Char :=
  if 65 ≤ c.toNat ∧ c.toNat ≤ 90 then Char.ofNat (c.toNat + 32) else c

/-- ASCII-range model of Python `str.upper` applied to one character. -/
def pyUpperChar (c : Char) : Char :=
  if 97 ≤ c.toNat ∧ c.toNat ≤ 122 then Char.ofNat (c.toNat - 32) else c

/-- Python substring test `needle in hay`. -/
def hasSubstr (needle : Str) : Str → Bool
  | [] => needle.isPrefixOf []
  | c :: rest => needle.isPrefixOf (c :: rest) || hasSubstr needle rest

/-! ## Endpoint generator (src/main.py, generate_endpoints) -/

/-- Scheme split of `generate_endpoints`: if the cleaned address starts with a
scheme, the host is the remainder and the given scheme is tried first; else
both schemes are tried against the whole address. -/
def hostAndSchemes (s : Str) : Str × List Str :=
  if (str "http://").isPrefixOf s then (s.drop 7, [str "http", str "https"])
  else if (str "https://").isPrefixOf s then (s.drop 8, [str "https", str "http"])
  else (s, [str "http", str "https"])

/-- The port variants tried by `generate_endpoints`. -/
def common_ports : List Str :=
  [[], str ":80", str ":8080", str ":8000", str ":8081", str ":8443", str ":443"]

/-- Order-preserving de-duplication (the `seen` set loop of the source). -/
def uniqSeen : List Str → List Str → List Str
  | _, [] => []
  | seen, u :: rest => if u ∈ seen then uniqSeen seen rest else u :: uniqSeen (u :: seen) rest

/-- src/main.py `generate_endpoints`: candidate base URLs for an address. -/
def generate_endpoints (base_server : Str) : List Str :=
  let s := pyRstrip isSlash (pyStrip base_server)
  let host := (hostAndSchemes s).1
  let schemes := (hostAndSchemes s).2
  let ports := if ':' ∈ host ∧ (str "[").isPrefixOf host = false then [[]] else common_ports
  let candidates :=
    (schemes.map (fun scheme => ports.map (fun p => pyRstrip isSlash (scheme ++ str "://" ++ host ++ p)))).flatten
  uniqSeen [] candidates

namespace Xtream

/-- src/xtream.py `generate_endpoints` (the near-duplicate file): identical
text modulo a comment. -/
def generate_endpoints (base_server : Str) : List Str :=
  let s := pyRstrip isSlash (pyStrip base_server)
  let host := (hostAndSchemes s).1
  let schemes := (hostAndSchemes s).2
  let ports := if ':' ∈ host ∧ (str "[").isPrefixOf host = false then [[]] else common_ports
  let candidates :=
    (schemes.map (fun scheme => ports.map (fun p => pyRstrip isSlash (scheme ++ str "://" ++ host ++ p)))).flatten
  uniqSeen [] candidates

end Xtream

example : generate_endpoints (str "example.com") =
    [str "http://example.com", str "http://example.com:80", str "http://example.com:8080",
     str "http://example.com:8000", str "http://example.com:8081", str "http://example.com:8443",
     str "http://example.com:443", str "https://example.com", str "https://example.com:80",
     str "https://example.com:8080", str "https://example.com:8000", str "https://example.com:8081",
     str "https://example.com:8443", str "https://example.com:443"] := by decide

example : generate_endpoints (str "example.com:8080") =
    [str "http://example.com:8080", str "https://example.com:8080"] := by decide

example : generate_endpoints (str " https://h.io/ ") =
    [str "https://h.io", str "https://h.io:80", str "https://h.io:8080",
     str "https://h.io:8000", str "https://h.io:8081", str "https://h.io:8443",
     str "https://h.io:443", str "http://h.io", str "http://h.io:80", str "http://h.io:8080",
     str "http://h.io:8000", str "http://h.io:8081", str "http://h.io:8443",
     str "http://h.io:443"] := by decide

example : (generate_endpoints (str "[::1]:8080")).length = 14 := by decide

/-! ## Generic list lemmas used throughout -/

theorem isPrefixOf_exists {l s : Str} (h : l.isPrefixOf s = true) : ∃ t, s = l ++ t := by
  induction l generalizing s with
  | nil => exact ⟨s, rfl⟩
  | cons a l ih =>
    cases s with
    | nil => simp [List.isPrefixOf] at h
    | cons b s =>
      simp only [List.isPrefixOf, Bool.and_eq_true, beq_iff_eq] at h
      obtain ⟨t, ht⟩ := ih h.2
      exact ⟨t, by rw [h.1, ht]; rfl⟩

theorem isPrefixOf_append (l t : Str) : l.isPrefixOf (l ++ t) = true := by
  induction l with
  | nil => simp [List.isPrefixOf]
  | cons a l ih => simpa [List.isPrefixOf] using ih

theorem dropWhile_head_false {p : Char → Bool} {l : Str} {c : Char}
    (h : (l.dropWhile p).head? = some c) : p c = false := by
  induction l with
  | nil => simp at h
  | cons a t ih =>
    by_cases hp : p a
    · rw [List.dropWhile_cons_of_pos hp] at h; exact ih h
    · rw [List.dropWhile_cons_of_neg hp] at h
      simp at h
      exact h ▸ Bool.eq_false_iff.mpr hp

theorem dropWhile_eq_self {p : Char → Bool} {l : Str}
    (h : ∀ c, l.head? = some c → p c = false) : l.dropWhile p = l := by
  cases l with
  | nil => rfl
  | cons c t => simp [List.dropWhile, h c rfl]

theorem head?_append_left {l m : Str} (h : l ≠ []) : (l ++ m).head? = l.head? := by
  cases l with
  | nil => exact absurd rfl h
  | cons c t => rfl

theorem reverse_head?_append {a b : Str} (h : b ≠ []) :
    (a ++ b).reverse.head? = b.reverse.head? := by
  rw [List.reverse_append]
  exact head?_append_left (by simpa using h)

theorem pyRstrip_eq_self {p : Char → Bool} {s : Str}
    (h : ∀ c, s.reverse.head? = some c → p c = false) : pyRstrip p s = s := by
  rw [pyRstrip, dropWhile_eq_self h, List.reverse_reverse]

theorem pyRstrip_reverse_head {p : Char → Bool} {s : Str} {c : Char}
    (h : (pyRstrip p s).reverse.head? = some c) : p c = false := by
  rw [pyRstrip, List.reverse_reverse] at h
  exact dropWhile_head_false h

theorem strip_slash_append {x p : Str} {c : Char} (hp : p.reverse.head? = some c)
    (hc : isSlash c = false) : pyRstrip isSlash (x ++ p) = x ++ p := by
  apply pyRstrip_eq_self
  intro d hd
  rw [reverse_head?_append (by rintro rfl; simp at hp)] at hd
  rw [hp] at hd
  cases hd
  exact hc

theorem http_ne_https (x y : Str) : str "http://" ++ x ≠ str "https://" ++ y := by
  intro h
  have h' : ('h' :: 't' :: 't' :: 'p' :: ':' :: '/' :: '/' :: x)
      = ('h' :: 't' :: 't' :: 'p' :: 's' :: ':' :: '/' :: '/' :: y) := h
  injection h' with _ h'
  injection h' with _ h'
  injection h' with _ h'
  injection h' with _ h'
  injection h' with h5 _
  exact absurd h5 (by decide)

theorem uniqSeen_eq_self : ∀ (seen l : List Str), l.Nodup → (∀ x ∈ l, x ∉ seen) →
    uniqSeen seen l = l := by
  intro seen l
  induction l generalizing seen with
  | nil => intro _ _; rfl
  | cons u rest ih =>
    intro hnd hns
    rw [uniqSeen, if_neg (hns u (by simp))]
    congr 1
    refine ih (u :: seen) (List.Nodup.of_cons hnd) ?_
    intro x hx
    simp only [List.mem_cons, not_or]
    refine ⟨?_, hns x (by simp [hx])⟩
    rintro rfl
    exact (List.nodup_cons.mp hnd).1 hx

theorem not_scheme_of_no_colon {s : Str} (h : ':' ∉ s) :
    (str "http://").isPrefixOf s = false ∧ (str "https://").isPrefixOf s = false := by
  constructor
  · cases hb : (str "http://").isPrefixOf s with
    | false => rfl
    | true =>
      obtain ⟨t, ht⟩ := isPrefixOf_exists hb
      exact absurd (ht ▸ List.mem_append_left t (by decide : ':' ∈ str "http://")) h
  · cases hb : (str "https://").isPrefixOf s with
    | false => rfl
    | true =>
      obtain ⟨t, ht⟩ := isPrefixOf_exists hb
      exact absurd (ht ▸ List.mem_append_left t (by decide : ':' ∈ str "https://")) h

/-! ## C5: addresses without scheme and port give fourteen candidates -/

/-- C5: for an address whose cleaned form (whitespace-stripped, trailing
slashes removed) is nonempty and contains no colon (hence no explicit scheme
and no explicit port), `generate_endpoints` returns exactly the fourteen
candidates: both schemes crossed with the seven port variants of
`common_ports`, in that deterministic order, with no duplicates and no
trailing slash. -/
theorem c5_fourteen_candidates (a : Str)
    (h1 : ':' ∉ pyRstrip isSlash (pyStrip a))
    (h2 : pyRstrip isSlash (pyStrip a) ≠ []) :
    generate_endpoints a =
        common_ports.map (fun p => str "http://" ++ pyRstrip isSlash (pyStrip a) ++ p) ++
        common_ports.map (fun p => str "https://" ++ pyRstrip isSlash (pyStrip a) ++ p) ∧
      (generate_endpoints a).length = 14 ∧
      (generate_endpoints a).Nodup ∧
      ∀ u ∈ generate_endpoints a, u.reverse.head? ≠ some '/' := by
  set s := pyRstrip isSlash (pyStrip a) with hs
  obtain ⟨c, hc, hlast⟩ : (∃ c, s.reverse.head? = some c ∧ isSlash c = false) := by
    cases hrev : s.reverse with
    | nil => exact absurd (by simpa using hrev) h2
    | cons c t =>
      have hh : (pyRstrip isSlash (pyStrip a)).reverse.head? = some c := by
        rw [← hs, hrev]; rfl
      exact ⟨c, by simp [hrev], pyRstrip_reverse_head hh⟩
  have hpre := not_scheme_of_no_colon h1
  have hhost : hostAndSchemes s = (s, [str "http", str "https"]) := by
    simp [hostAndSchemes, hpre.1, hpre.2]
  have hstrip : ∀ x : Str, pyRstrip isSlash (x ++ s) = x ++ s :=
    fun _ => strip_slash_append hc hlast
  have hmap : ∀ pre : Str, (∀ x : Str, pyRstrip isSlash (x ++ s) = x ++ s) →
      common_ports.map (fun p => pyRstrip isSlash (pre ++ str "://" ++ s ++ p)) =
      common_ports.map (fun p => pre ++ str "://" ++ s ++ p) := by
    intro pre hst
    apply List.map_congr_left
    intro p hp
    simp only [common_ports, List.mem_cons, List.not_mem_nil, or_false] at hp
    rcases hp with rfl | rfl | rfl | rfl | rfl | rfl | rfl
    · simp only [List.append_nil]
      exact hst _
    · exact strip_slash_append rfl (by decide)
    · exact strip_slash_append rfl (by decide)
    · exact strip_slash_append rfl (by decide)
    · exact strip_slash_append rfl (by decide)
    · exact strip_slash_append rfl (by decide)
    · exact strip_slash_append rfl (by decide)
  have hnd1 : (common_ports.map (fun p => str "http://" ++ s ++ p)).Nodup := by
    refine List.Nodup.map (fun p q h => List.append_cancel_left h) (by decide)
  have hnd2 : (common_ports.map (fun p => str "https://" ++ s ++ p)).Nodup := by
    refine List.Nodup.map (fun p q h => List.append_cancel_left h) (by decide)
  have hdisj : (common_ports.map (fun p => str "http://" ++ s ++ p)).Disjoint
      (common_ports.map (fun p => str "https://" ++ s ++ p)) := by
    intro x hx hy
    simp only [List.mem_map] at hx hy
    obtain ⟨p, _, rfl⟩ := hx
    obtain ⟨q, _, hq⟩ := hy
    rw [List.append_assoc, List.append_assoc] at hq
    exact http_ne_https (s ++ p) (s ++ q) hq.symm
  have hnd : (common_ports.map (fun p => str "http://" ++ s ++ p) ++
      common_ports.map (fun p => str "https://" ++ s ++ p)).Nodup :=
    List.Nodup.append hnd1 hnd2 hdisj
  have hmain : generate_endpoints a =
      common_ports.map (fun p => str "http://" ++ s ++ p) ++
      common_ports.map (fun p => str "https://" ++ s ++ p) := by
    simp only [generate_endpoints, ← hs, hhost]
    rw [if_neg (fun hcon => h1 hcon.1)]
    simp only [List.map_cons, List.map_nil, List.flatten_cons, List.flatten_nil, List.append_nil]
    rw [hmap (str "http") hstrip, hmap (str "https") hstrip]
    exact uniqSeen_eq_self [] _ hnd (by simp)
  refine ⟨hmain, ?_, ?_, ?_⟩
  · rw [hmain]; simp [common_ports]
  · rw [hmain]; exact hnd
  · rw [hmain]
    intro u hu heq
    rcases List.mem_append.mp hu with hx | hx <;>
    · simp only [List.mem_map] at hx
      obtain ⟨p, hp, rfl⟩ := hx
      simp only [common_ports, List.mem_cons, List.not_mem_nil, or_false] at hp
      rcases hp with rfl | rfl | rfl | rfl | rfl | rfl | rfl
      · rw [List.append_nil, reverse_head?_append h2, hc] at heq
        cases heq
        exact absurd hlast (by simp [isSlash])
      all_goals
        rw [reverse_head?_append (by decide)] at heq
        exact absurd heq (by decide)


/-- C5 witness at the concrete address "example.com". -/
theorem c5_fourteen_candidates_witness :
    generate_endpoints (str "example.com") =
        common_ports.map (fun p => str "http://" ++ pyRstrip isSlash (pyStrip (str "example.com")) ++ p) ++
        common_ports.map (fun p => str "https://" ++ pyRstrip isSlash (pyStrip (str "example.com")) ++ p) ∧
      (generate_endpoints (str "example.com")).length = 14 ∧
      (generate_endpoints (str "example.com")).Nodup ∧
      ∀ u ∈ generate_endpoints (str "example.com"), u.reverse.head? ≠ some '/' :=
  c5_fourteen_candidates (str "example.com") (by decide) (by decide)

/-! ## C6: addresses whose host carries an explicit port -/

theorem flatten_map_single {α β : Type} (f : α → β) (l : List α) :
    (l.map (fun x => [f x])).flatten = l.map f := by
  induction l with
  | nil => rfl
  | cons x t ih => simp [ih]

theorem gen_endpoints_port_aux (a host : Str) (schemes : List Str)
    (hhs : hostAndSchemes (pyRstrip isSlash (pyStrip a)) = (host, schemes))
    (hcol : ':' ∈ host) (hbr : (str "[").isPrefixOf host = false)
    (c : Char) (hch : host.reverse.head? = some c) (hcs : isSlash c = false)
    (hnd : (schemes.map (fun scheme => scheme ++ str "://" ++ host)).Nodup) :
    generate_endpoints a = schemes.map (fun scheme => scheme ++ str "://" ++ host) := by
  simp only [generate_endpoints, hhs]
  rw [if_pos ⟨hcol, hbr⟩]
  have h1 : schemes.map (fun scheme =>
        [[]].map (fun p : Str => pyRstrip isSlash (scheme ++ str "://" ++ host ++ p))) =
      schemes.map (fun scheme => [scheme ++ str "://" ++ host]) := by
    apply List.map_congr_left
    intro sch _
    simp only [List.map_cons, List.map_nil, List.append_nil]
    rw [strip_slash_append hch hcs]
  rw [h1, flatten_map_single]
  exact uniqSeen_eq_self [] _ hnd (by simp)

/-- C6 counterexample: the address "[::1]:8080" has a host portion with an
explicit port (8080), yet `generate_endpoints` returns 14 candidates, not 2,
because the port detection of the source skips hosts beginning with a
bracket.  The claim as stated is therefore false. -/
theorem c6_counterexample_bracket_host :
    (generate_endpoints (str "[::1]:8080")).length = 14 ∧
      ¬ (generate_endpoints (str "[::1]:8080")).length = 2 := by
  constructor
  · decide
  · decide

/-- C6 (amended): for every address whose host portion contains a colon and
does not begin with a bracket, `generate_endpoints` returns exactly the two
scheme variants against that exact host, with no additional ports. -/
theorem c6_two_candidates (a : Str)
    (hcol : ':' ∈ (hostAndSchemes (pyRstrip isSlash (pyStrip a))).1)
    (hbr : (str "[").isPrefixOf (hostAndSchemes (pyRstrip isSlash (pyStrip a))).1 = false) :
    generate_endpoints a =
        (hostAndSchemes (pyRstrip isSlash (pyStrip a))).2.map
          (fun scheme => scheme ++ str "://" ++ (hostAndSchemes (pyRstrip isSlash (pyStrip a))).1) ∧
      (generate_endpoints a).length = 2 ∧
      (generate_endpoints a).Nodup := by
  set s := pyRstrip isSlash (pyStrip a) with hs
  obtain ⟨c, hc, hlast⟩ : (∃ c, s.reverse.head? = some c ∧ isSlash c = false) := by
    have h2 : s ≠ [] := by
      intro h
      rw [h] at hcol hbr
      revert hcol
      decide
    cases hrev : s.reverse with
    | nil => exact absurd (by simpa using hrev) h2
    | cons c t =>
      have hh : (pyRstrip isSlash (pyStrip a)).reverse.head? = some c := by
        rw [← hs, hrev]; rfl
      exact ⟨c, by simp [hrev], pyRstrip_reverse_head hh⟩
  by_cases b1 : (str "http://").isPrefixOf s = true
  · obtain ⟨t, ht⟩ := isPrefixOf_exists b1
    have hhs : hostAndSchemes s = (t, [str "http", str "https"]) := by
      rw [hostAndSchemes, if_pos b1, ht]
      exact congrArg (fun z => (z, [str "http", str "https"])) (List.drop_left (str "http://") t)
    rw [hhs] at hcol hbr ⊢
    have htne : t ≠ [] := by rintro rfl; revert hcol; decide
    have hct : t.reverse.head? = some c := by rw [← reverse_head?_append htne, ← ht]; exact hc
    have hnd : (([str "http", str "https"]).map (fun scheme => scheme ++ str "://" ++ t)).Nodup := by
      simp only [List.map_cons, List.map_nil]
      refine List.nodup_cons.mpr ⟨?_, List.nodup_singleton _⟩
      simp only [List.mem_singleton]
      intro h
      exact http_ne_https t t h
    have := gen_endpoints_port_aux a t [str "http", str "https"] (by rw [← hs]; exact hhs)
      hcol hbr c hct hlast hnd
    refine ⟨this, by rw [this]; rfl, by rw [this]; exact hnd⟩
  · by_cases b2 : (str "https://").isPrefixOf s = true
    · obtain ⟨t, ht⟩ := isPrefixOf_exists b2
      have hhs : hostAndSchemes s = (t, [str "https", str "http"]) := by
        rw [hostAndSchemes, if_neg (by simp [b1]), if_pos b2, ht]
        exact congrArg (fun z => (z, [str "https", str "http"])) (List.drop_left (str "https://") t)
      rw [hhs] at hcol hbr ⊢
      have htne : t ≠ [] := by rintro rfl; revert hcol; decide
      have hct : t.reverse.head? = some c := by rw [← reverse_head?_append htne, ← ht]; exact hc
      have hnd : (([str "https", str "http"]).map (fun scheme => scheme ++ str "://" ++ t)).Nodup := by
        simp only [List.map_cons, List.map_nil]
        refine List.nodup_cons.mpr ⟨?_, List.nodup_singleton _⟩
        simp only [List.mem_singleton]
        intro h
        exact http_ne_https t t h.symm
      have := gen_endpoints_port_aux a t [str "https", str "http"] (by rw [← hs]; exact hhs)
        hcol hbr c hct hlast hnd
      refine ⟨this, by rw [this]; rfl, by rw [this]; exact hnd⟩
    · have hhs : hostAndSchemes s = (s, [str "http", str "https"]) := by
        rw [hostAndSchemes, if_neg (by simp [b1]), if_neg (by simp [b2])]
      rw [hhs] at hcol hbr ⊢
      have hnd : (([str "http", str "https"]).map (fun scheme => scheme ++ str "://" ++ s)).Nodup := by
        simp only [List.map_cons, List.map_nil]
        refine List.nodup_cons.mpr ⟨?_, List.nodup_singleton _⟩
        simp only [List.mem_singleton]
        intro h
        exact http_ne_https s s h
      have := gen_endpoints_port_aux a s [str "http", str "https"] (by rw [← hs]; exact hhs)
        hcol hbr c hc hlast hnd
      refine ⟨this, by rw [this]; rfl, by rw [this]; exact hnd⟩

/-- C6 witness at the concrete address "example.com:8080". -/
theorem c6_two_candidates_witness :
    generate_endpoints (str "example.com:8080") =
        (hostAndSchemes (pyRstrip isSlash (pyStrip (str "example.com:8080")))).2.map
          (fun scheme => scheme ++ str "://" ++
            (hostAndSchemes (pyRstrip isSlash (pyStrip (str "example.com:8080")))).1) ∧
      (generate_endpoints (str "example.com:8080")).length = 2 ∧
      (generate_endpoints (str "example.com:8080")).Nodup :=
  c6_two_candidates (str "example.com:8080") (by decide) (by decide)

/-- C9: the two `generate_endpoints` implementations of src/main.py and
src/xtream.py denote the same function: they return identical candidate
lists on every input address. -/
theorem c9_generate_endpoints_equal :
    ∀ address : Str, generate_endpoints address = Xtream.generate_endpoints address :=
  fun _ => rfl

/-! ## HTTP model

Network traffic is modelled by an oracle mapping a URL to the answer the
Python call `request_with_client(url, ...)` would produce: either a response
object (status code, decoded body text, and the payload `resp.json()` would
return, `none` when the body is not valid JSON) or a raised exception,
paired with the name of the client that made the attempt. -/

structure Payload where
  user_info : List (Str × Str)
  server_info : List (Str × Str)
deriving DecidableEq

structure Response where
  status_code : Nat
  text : Str
  json : Option Payload
deriving DecidableEq

inductive ReqAnswer where
  | exn (e : Str)
  | resp (r : Response)
deriving DecidableEq

/-- src/main.py `request_with_client`: try cloudscraper when available, fall
back to plain requests, and return any requests-level exception as a value.
The two clients are modelled as oracles from (url, timeout, stream) to
either a response or a raised exception. -/
def request_with_client (hasCloudscraper : Bool)
    (csGet reqGet : Str → Nat → Bool → Except Str Response)
    (endpoint : Str) (timeout : Nat) (stream : Bool) : ReqAnswer × Str :=
  if hasCloudscraper then
    match csGet endpoint timeout stream with
    | Except.ok r => (ReqAnswer.resp r, str "cloudscraper")
    | Except.error _ =>
      match reqGet endpoint timeout stream with
      | Except.ok r => (ReqAnswer.resp r, str "requests")
      | Except.error e => (ReqAnswer.exn e, str "requests")
  else
    match reqGet endpoint timeout stream with
    | Except.ok r => (ReqAnswer.resp r, str "requests")
    | Except.error e => (ReqAnswer.exn e, str "requests")

/-- C7: `request_with_client` never raises: for every combination of client
behaviours, url, timeout and stream flag it returns a value; a failure is
returned as the tagged exception of the plain requests client (the client
that made the final attempt), and a response is tagged with the client that
produced it. -/
theorem c7_request_with_client_never_raises (hasCloudscraper : Bool)
    (csGet reqGet : Str → Nat → Bool → Except Str Response)
    (url : Str) (timeout : Nat) (stream : Bool) :
    (match request_with_client hasCloudscraper csGet reqGet url timeout stream with
     | (ReqAnswer.exn e, client) =>
        client = str "requests" ∧ reqGet url timeout stream = Except.error e
     | (ReqAnswer.resp r, client) =>
        (client = str "cloudscraper" ∧ hasCloudscraper = true ∧
          csGet url timeout stream = Except.ok r) ∨
        (client = str "requests" ∧ reqGet url timeout stream = Except.ok r)) := by
  cases hasCloudscraper <;>
    rcases hcs : csGet url timeout stream with e | r <;>
    rcases hr : reqGet url timeout stream with e' | r' <;>
    simp [request_with_client, hcs, hr]

/-! ## Probe engine (src/main.py, fetch_player_api_robust) -/

structure DebugRec where
  label : Str
  endpoint : Str
  body : Str
deriving DecidableEq

/-- The player_api URL built for a candidate base. -/
def apiUrl (base username password : Str) : Str :=
  base ++ str "/player_api.php?username=" ++ username ++ str "&password=" ++ password

inductive ApiResult where
  | success (endpoint client : Str) (data : Payload)
  | failure (tried : List (Str × ReqAnswer × Str))
deriving DecidableEq

def ApiResult.ok : ApiResult → Bool
  | .success _ _ _ => true
  | .failure _ => false

/-- The candidate loop of `fetch_player_api_robust`.  Besides the result it
returns the debug records persisted by `save_debug_response` and the list of
URLs actually requested, in order. -/
def fetchApiLoop (net : Str → ReqAnswer × Str) (username password : Str) :
    List Str → List (Str × ReqAnswer × Str) → List DebugRec → List Str →
    ApiResult × List DebugRec × List Str
  | [], tried, dbg, reqs => (ApiResult.failure tried, dbg, reqs)
  | base :: bases, tried, dbg, reqs =>
    let api_url := apiUrl base username password
    let ans := net api_url
    let tried' := tried ++ [(api_url, ans.1, ans.2)]
    let reqs' := reqs ++ [api_url]
    match ans.1 with
    | ReqAnswer.exn _ => fetchApiLoop net username password bases tried' dbg reqs'
    | ReqAnswer.resp r =>
      if r.status_code ≠ 200 then
        fetchApiLoop net username password bases tried'
          (dbg ++ [⟨str "player_api_non200", api_url, r.text⟩]) reqs'
      else
        match r.json with
        | some d => (ApiResult.success api_url ans.2 d, dbg, reqs')
        | none => fetchApiLoop net username password bases tried'
            (dbg ++ [⟨str "player_api_badjson", api_url, r.text⟩]) reqs'

/-- src/main.py `fetch_player_api_robust`. -/
def fetch_player_api_robust (net : Str → ReqAnswer × Str)
    (server_url username password : Str) : ApiResult × List DebugRec × List Str :=
  fetchApiLoop net username password (generate_endpoints server_url) [] [] []

/-- The network used for the C3 scenario: the first candidate raises a
transport error, the second returns HTTP 404, the third returns valid JSON,
all further candidates would raise. -/
def c3Net : Str → ReqAnswer × Str := fun u =>
  if u = apiUrl (str "http://h") (str "u") (str "p") then
    (ReqAnswer.exn (str "connection refused"), str "requests")
  else if u = apiUrl (str "http://h:80") (str "u") (str "p") then
    (ReqAnswer.resp ⟨404, str "not found", none⟩, str "requests")
  else if u = apiUrl (str "http://h:8080") (str "u") (str "p") then
    (ReqAnswer.resp ⟨200, str "ok body", some ⟨[], []⟩⟩, str "cloudscraper")
  else (ReqAnswer.exn (str "unreached"), str "requests")

/-- C3 counterexample: in the A-errors / B-404 / C-ok scenario the claim
expects a persisted diagnostic for the transport error A as well, but the
source only logs transport errors and persists nothing for them: exactly one
diagnostic exists (for B), and none names A's endpoint. -/
theorem c3_counterexample_no_diag_for_transport_error :
    (fetch_player_api_robust c3Net (str "h") (str "u") (str "p")).2.1 =
      [⟨str "player_api_non200", apiUrl (str "http://h:80") (str "u") (str "p"),
        str "not found"⟩] ∧
    ∀ rec ∈ (fetch_player_api_robust c3Net (str "h") (str "u") (str "p")).2.1,
      rec.endpoint ≠ apiUrl (str "http://h") (str "u") (str "p") := by
  constructor
  · decide
  · decide

/-- C3 (amended): when the first three candidates behave as transport error /
HTTP 404 / valid JSON, `fetch_player_api_robust` succeeds with the third
candidate's endpoint, client and payload; one diagnostic is persisted for the
404 (none for the transport error, which is only logged); and only the first
three URLs are ever requested, so later candidates are never attempted. -/
theorem c3_probe_scenario (net : Str → ReqAnswer × Str)
    (server_url username password : Str) (ba bb bc : Str) (rest : List Str)
    (hend : generate_endpoints server_url = ba :: bb :: bc :: rest)
    (ea ca : Str) (hA : net (apiUrl ba username password) = (ReqAnswer.exn ea, ca))
    (bodyB : Str) (jB : Option Payload) (cb : Str)
    (hB : net (apiUrl bb username password) = (ReqAnswer.resp ⟨404, bodyB, jB⟩, cb))
    (bodyC : Str) (d : Payload) (cc : Str)
    (hC : net (apiUrl bc username password) = (ReqAnswer.resp ⟨200, bodyC, some d⟩, cc)) :
    fetch_player_api_robust net server_url username password =
      (ApiResult.success (apiUrl bc username password) cc d,
       [⟨str "player_api_non200", apiUrl bb username password, bodyB⟩],
       [apiUrl ba username password, apiUrl bb username password,
        apiUrl bc username password]) := by
  rw [fetch_player_api_robust, hend]
  simp [fetchApiLoop, hA, hB, hC]

/-- C3 witness: the scenario theorem applied to the concrete network `c3Net`
and address "h". -/
theorem c3_probe_scenario_witness :
    fetch_player_api_robust c3Net (str "h") (str "u") (str "p") =
      (ApiResult.success (apiUrl (str "http://h:8080") (str "u") (str "p"))
        (str "cloudscraper") ⟨[], []⟩,
       [⟨str "player_api_non200", apiUrl (str "http://h:80") (str "u") (str "p"),
         str "not found"⟩],
       [apiUrl (str "http://h") (str "u") (str "p"),
        apiUrl (str "http://h:80") (str "u") (str "p"),
        apiUrl (str "http://h:8080") (str "u") (str "p")]) :=
  c3_probe_scenario c3Net (str "h") (str "u") (str "p")
    (str "http://h") (str "http://h:80") (str "http://h:8080")
    [str "http://h:8000", str "http://h:8081", str "http://h:8443", str "http://h:443",
     str "https://h", str "https://h:80", str "https://h:8080", str "https://h:8000",
     str "https://h:8081", str "https://h:8443", str "https://h:443"]
    (by decide) (str "connection refused") (str "requests") (by decide)
    (str "not found") none (str "requests") (by decide)
    (str "ok body") ⟨[], []⟩ (str "cloudscraper") (by decide)

/-! ## Playlist fetch (src/main.py, fetch_playlist_robust) -/

/-- The get.php URL built for a candidate base. -/
def plUrl (base username password m3u_type : Str) : Str :=
  base ++ str "/get.php?username=" ++ username ++ str "&password=" ++ password ++
    str "&type=" ++ m3u_type

inductive PlResult where
  | success (endpoint client text : Str)
  | failure
deriving DecidableEq

def PlResult.ok : PlResult → Bool
  | .success _ _ _ => true
  | .failure => false

/-- The candidate loop of `fetch_playlist_robust`.  The streamed download and
its decoding are summarised by the oracle's response text; a status-200 body
is accepted exactly when its uppercased text contains the marker, otherwise
it is persisted under the label playlist_nonm3u and the loop continues. -/
def fetchPlLoop (net : Str → ReqAnswer × Str) (username password m3u_type : Str) :
    List Str → List DebugRec → PlResult × List DebugRec
  | [], dbg => (PlResult.failure, dbg)
  | base :: bases, dbg =>
    let pl_url := plUrl base username password m3u_type
    let ans := net pl_url
    match ans.1 with
    | ReqAnswer.exn _ => fetchPlLoop net username password m3u_type bases dbg
    | ReqAnswer.resp r =>
      if r.status_code ≠ 200 then
        fetchPlLoop net username password m3u_type bases
          (dbg ++ [⟨str "playlist_non200", pl_url, r.text⟩])
      else
        if hasSubstr (str "#EXTM3U") (r.text.map pyUpperChar) then
          (PlResult.success pl_url ans.2 r.text, dbg)
        else
          fetchPlLoop net username password m3u_type bases
            (dbg ++ [⟨str "playlist_nonm3u", pl_url, r.text⟩])

/-- src/main.py `fetch_playlist_robust`. -/
def fetch_playlist_robust (net : Str → ReqAnswer × Str)
    (server_url username password m3u_type : Str) : PlResult × List DebugRec :=
  fetchPlLoop net username password m3u_type (generate_endpoints server_url) []

theorem fetchPlLoop_all_nonm3u (net : Str → ReqAnswer × Str)
    (username password m3u_type : Str) (R : Str → Response) (C : Str → Str) :
    ∀ (bases : List Str) (dbg : List DebugRec),
      (∀ b ∈ bases, net (plUrl b username password m3u_type) = (ReqAnswer.resp (R b), C b) ∧
        (R b).status_code = 200 ∧
        hasSubstr (str "#EXTM3U") ((R b).text.map pyUpperChar) = false) →
      fetchPlLoop net username password m3u_type bases dbg =
        (PlResult.failure, dbg ++ bases.map (fun b =>
          ⟨str "playlist_nonm3u", plUrl b username password m3u_type, (R b).text⟩)) := by
  intro bases
  induction bases with
  | nil => intro dbg _; simp [fetchPlLoop]
  | cons b bs ih =>
    intro dbg hall
    obtain ⟨hnet, hst, hmk⟩ := hall b (by simp)
    rw [fetchPlLoop]
    simp only [hnet, hst, hmk]
    rw [if_neg (by simp), if_neg (by simp [hmk])]
    rw [ih _ (fun x hx => hall x (by simp [hx]))]
    simp

/-- C4: when every candidate answers status 200 with a body lacking the
case-insensitive marker, the playlist fetch fails in aggregate, and exactly
one playlist_nonm3u diagnostic is persisted per attempted candidate, in
candidate order. -/
theorem c4_all_nonm3u_fails (net : Str → ReqAnswer × Str)
    (server_url username password m3u_type : Str) (R : Str → Response) (C : Str → Str)
    (hall : ∀ b ∈ generate_endpoints server_url,
      net (plUrl b username password m3u_type) = (ReqAnswer.resp (R b), C b) ∧
      (R b).status_code = 200 ∧
      hasSubstr (str "#EXTM3U") ((R b).text.map pyUpperChar) = false) :
    (fetch_playlist_robust net server_url username password m3u_type).1 = PlResult.failure ∧
    (fetch_playlist_robust net server_url username password m3u_type).2 =
      (generate_endpoints server_url).map (fun b =>
        ⟨str "playlist_nonm3u", plUrl b username password m3u_type, (R b).text⟩) ∧
    (fetch_playlist_robust net server_url username password m3u_type).2.length =
      (generate_endpoints server_url).length := by
  have h := fetchPlLoop_all_nonm3u net username password m3u_type R C
    (generate_endpoints server_url) [] hall
  rw [fetch_playlist_robust, h]
  simp

/-- The network used for the C4 witness: every URL answers 200 with a body
that does not contain the marker. -/
def c4Net : Str → ReqAnswer × Str :=
  fun _ => (ReqAnswer.resp ⟨200, str "hello world", none⟩, str "requests")

/-- C4 witness: all fourteen candidates of address "h" answer 200 without the
marker; the fetch fails and persists one diagnostic per candidate. -/
theorem c4_all_nonm3u_fails_witness :
    (fetch_playlist_robust c4Net (str "h") (str "u") (str "p") (str "m3u_plus")).1 =
      PlResult.failure ∧
    (fetch_playlist_robust c4Net (str "h") (str "u") (str "p") (str "m3u_plus")).2 =
      (generate_endpoints (str "h")).map (fun b =>
        ⟨str "playlist_nonm3u", plUrl b (str "u") (str "p") (str "m3u_plus"),
         ((fun _ => (⟨200, str "hello world", none⟩ : Response)) b).text⟩) ∧
    (fetch_playlist_robust c4Net (str "h") (str "u") (str "p") (str "m3u_plus")).2.length =
      (generate_endpoints (str "h")).length :=
  c4_all_nonm3u_fails c4Net (str "h") (str "u") (str "p") (str "m3u_plus")
    (fun _ => ⟨200, str "hello world", none⟩) (fun _ => str "requests") (by decide)

/-! ## Server refresh (src/main.py, refresh_server) -/

/-- A saved server record (the dict schema of the servers store). -/
structure ServerRecord where
  name : Str
  server_url : Str
  username : Str
  password : Str
  created_at : Nat
  last_check : Option Nat
  last_endpoint : Option Str
  last_client : Option Str
  user_info : List (Str × Str)
  server_info : List (Str × Str)
deriving DecidableEq

/-- src/main.py `refresh_server`: loads the store, probes the selected
record's server, updates the record and saves the store.  The returned value
is the list written back by `save_servers`; `none` models the unreachable
out-of-range index (an uncaught IndexError, nothing saved).  `now` stands for
`int(time.time())`. -/
def refresh_server (net : Str → ReqAnswer × Str) (servers : List ServerRecord)
    (idx : Nat) (now : Nat) : Option (List ServerRecord) :=
  match servers[idx]? with
  | none => none
  | some s =>
    match (fetch_player_api_robust net s.server_url s.username s.password).1 with
    | ApiResult.failure _ =>
      some (servers.set idx
        { s with last_endpoint := none, last_client := none, last_check := some now })
    | ApiResult.success endpoint client data =>
      some (servers.set idx
        { s with user_info := data.user_info, server_info := data.server_info,
                 last_endpoint := some endpoint, last_client := some client,
                 last_check := some now })

/-- C10: when the probe reports failure, `refresh_server` still saves the
store; the selected record keeps its name, server_url, username, password,
created_at, user_info and server_info, while last_endpoint and last_client
become None and last_check becomes the current time; every other position of
the store is unchanged (the written list is a single-position `set`, which
has the same length and agrees with the old store everywhere else). -/
theorem c10_refresh_failure_frame (net : Str → ReqAnswer × Str)
    (servers : List ServerRecord) (idx now : Nat) (s : ServerRecord)
    (hidx : servers[idx]? = some s)
    (hfail : (fetch_player_api_robust net s.server_url s.username s.password).1.ok = false) :
    refresh_server net servers idx now =
      some (servers.set idx
        { name := s.name, server_url := s.server_url, username := s.username,
          password := s.password, created_at := s.created_at, last_check := some now,
          last_endpoint := none, last_client := none,
          user_info := s.user_info, server_info := s.server_info }) ∧
    (servers.set idx
        { name := s.name, server_url := s.server_url, username := s.username,
          password := s.password, created_at := s.created_at, last_check := some now,
          last_endpoint := none, last_client := none,
          user_info := s.user_info, server_info := s.server_info }).length =
      servers.length ∧
    ∀ j, j ≠ idx →
      (servers.set idx
        { name := s.name, server_url := s.server_url, username := s.username,
          password := s.password, created_at := s.created_at, last_check := some now,
          last_endpoint := none, last_client := none,
          user_info := s.user_info, server_info := s.server_info })[j]? = servers[j]? := by
  refine ⟨?_, by simp, ?_⟩
  · rcases hres : (fetch_player_api_robust net s.server_url s.username s.password).1 with
      ⟨e, c, d⟩ | tr
    · rw [hres] at hfail; exact absurd hfail (by simp [ApiResult.ok])
    · simp only [refresh_server, hidx, hres]
  · intro j hj
    exact List.getElem?_set_ne (fun h => hj h.symm)

/-- The all-failing network used for the C10 witness. -/
def c10Net : Str → ReqAnswer × Str := fun _ => (ReqAnswer.exn (str "timeout"), str "requests")

/-- The stored record used for the C10 witness. -/
def c10Rec : ServerRecord :=
  ⟨str "srv", str "h", str "u", str "p", 1111, none, some (str "http://old"),
   some (str "requests"), [(str "status", str "Active")], [(str "url", str "h")]⟩

/-- C10 witness: refreshing the single stored record over the all-failing
network clears last_endpoint and last_client, stamps last_check, keeps all
other fields, and the store is saved. -/
theorem c10_refresh_failure_frame_witness :
    refresh_server c10Net [c10Rec] 0 2222 =
      some ([c10Rec].set 0
        { name := c10Rec.name, server_url := c10Rec.server_url, username := c10Rec.username,
          password := c10Rec.password, created_at := c10Rec.created_at,
          last_check := some 2222, last_endpoint := none, last_client := none,
          user_info := c10Rec.user_info, server_info := c10Rec.server_info }) :=
  (c10_refresh_failure_frame c10Net [c10Rec] 0 2222 c10Rec (by decide) (by decide)).1

/-! ## Playlist codec (src/main.py, parse_m3u_to_json and friends) -/

/-- Python `str.splitlines`: split at line-boundary characters, the pair
CR LF counting as a single boundary, with no trailing empty line. -/
def splitlinesAux : Str → Str → List Str
  | cur, [] => if cur = [] then [] else [cur.reverse]
  | cur, '\r' :: '\n' :: rest => cur.reverse :: splitlinesAux [] rest
  | cur, c :: rest =>
    if isLineBreakChar c then cur.reverse :: splitlinesAux [] rest
    else splitlinesAux (c :: cur) rest

def splitlines (s : Str) : List Str := splitlinesAux [] s

/-- Python `ln.split(",", 1)`: the part before the first comma, and the part
after it when a comma exists. -/
def splitFirstComma : Str → Str × Option Str
  | [] => ([], none)
  | c :: rest =>
    if c = ',' then ([], some rest)
    else
      let pr := splitFirstComma rest
      (c :: pr.1, pr.2)

/-- The character class `[-0-9]` of the duration pattern. -/
def isDurChar (c : Char) : Bool := c.toNat = 45 || (48 ≤ c.toNat && c.toNat ≤ 57)

/-- `re.match(r'#EXTINF:([-0-9]+)', header, re.IGNORECASE)`: the longest run
of duration characters right after the case-insensitive literal `#EXTINF:`;
empty when the pattern does not match (duration absent). -/
def durOf (header : Str) : Str :=
  if (str "#extinf:").isPrefixOf (header.map pyLowerChar) then
    (header.drop 8).takeWhile isDurChar
  else []

/-- The attribute-key character class `[a-zA-Z0-9\-_]`. -/
def isKeyChar (c : Char) : Bool :=
  (97 ≤ c.toNat && c.toNat ≤ 122) || (65 ≤ c.toNat && c.toNat ≤ 90) ||
  (48 ≤ c.toNat && c.toNat ≤ 57) || c.toNat = 45 || c.toNat = 95

/-- `re.findall` for the attribute pattern: key of key-class characters,
then `="`, then the value up to the next double quote.  Since `=` is not a
key character, a match starting inside a key-character run forces the key to
be the remainder of that run, so the scan advances run by run; when a `="`
has no closing quote the rest of the input can contain no further match.
Fuel bounds the steps and is called with the input length. -/
def findAttrsF : Nat → Str → List (Str × Str)
  | 0, _ => []
  | _ + 1, [] => []
  | fuel + 1, c :: rest =>
    if isKeyChar c then
      let after := rest.dropWhile isKeyChar
      if after.take 2 = ['=', dquote] then
        let tail := after.drop 2
        let v := tail.takeWhile (fun d => d ≠ dquote)
        let rem := tail.dropWhile (fun d => d ≠ dquote)
        if rem = [] then []
        else (c :: rest.takeWhile isKeyChar, v) :: findAttrsF fuel rem.tail
      else findAttrsF fuel after
    else findAttrsF fuel rest

def findAttrs (s : Str) : List (Str × Str) := findAttrsF s.length s

/-- Python `dict(pairs)`: first-occurrence key order, later values win. -/
def dictInsert (d : List (Str × Str)) (k v : Str) : List (Str × Str) :=
  if d.any (fun p => p.1 = k) then d.map (fun p => if p.1 = k then (k, v) else p)
  else d ++ [(k, v)]

def dictOf (l : List (Str × Str)) : List (Str × Str) :=
  l.foldl (fun d p => dictInsert d p.1 p.2) []

/-- A parsed channel record. -/
structure Channel where
  title : Str
  duration : Str
  attrs : List (Str × Str)
  url : Str
  raw_extinf : Str
deriving DecidableEq

/-- The fields extracted from one stripped `#EXTINF` line (the url is filled
in by the lookahead). -/
def parseExtinf (ln : Str) : Channel :=
  { title := match (splitFirstComma ln).2 with | some t => pyStrip t | none => []
    duration := durOf (splitFirstComma ln).1
    attrs := dictOf (findAttrs (splitFirstComma ln).1)
    url := []
    raw_extinf := ln }

/-- The url lookahead of the parser: skip blank lines and lines whose
stripped form starts with `#`; return the first other stripped line together
with the lines after it; return `([], [])` at end of input (no url, and the
outer loop index moves past the end). -/
def findUrlSplit : List Str → Str × List Str
  | [] => ([], [])
  | l :: ls =>
    let c := pyStrip l
    if c = [] ∨ c.head? = some '#' then findUrlSplit ls
    else (c, ls)

/-- `ln.upper().startswith("#EXTINF")`. -/
def isExtinfLine (s : Str) : Bool := (str "#EXTINF").isPrefixOf (s.map pyUpperChar)

/-- The line loop of `parse_m3u_to_json`; at least one line is consumed per
step, fuel is called with the number of lines. -/
def parseLinesF : Nat → List Str → List Channel
  | 0, _ => []
  | _ + 1, [] => []
  | fuel + 1, l :: ls =>
    let c := pyStrip l
    if c = [] then parseLinesF fuel ls
    else if isExtinfLine c then
      { parseExtinf c with url := (findUrlSplit ls).1 } :: parseLinesF fuel (findUrlSplit ls).2
    else parseLinesF fuel ls

/-- src/main.py `parse_m3u_to_json` (lines are split, then stripped of a
trailing newline as in the source's comprehension). -/
def parse_m3u_to_json (m3u_text : Str) : List Channel :=
  parseLinesF ((splitlines m3u_text).map (fun l => pyRstrip isNewline l)).length
    ((splitlines m3u_text).map (fun l => pyRstrip isNewline l))

/-- Python `" ".join(parts)`. -/
def joinSpace : List Str → Str
  | [] => []
  | [x] => x
  | x :: xs => x ++ (' ' :: joinSpace xs)

/-- src/main.py `build_extinf_line`: duration, space-joined `key="value"`
attribute parts (embedded double quotes replaced by single quotes), a comma,
then the title; the attribute segment and its leading space are omitted when
there are no attributes. -/
def build_extinf_line (entry : Channel) : Str :=
  let attr_str := joinSpace (entry.attrs.map (fun p =>
    p.1 ++ ('=' :: dquote :: ((p.2.map (fun c => if c = dquote then apos else c)) ++ [dquote]))))
  if attr_str = [] then (str "#EXTINF:" ++ entry.duration) ++ (',' :: entry.title)
  else ((str "#EXTINF:" ++ entry.duration) ++ (' ' :: attr_str)) ++ (',' :: entry.title)

/-- src/main.py `create_m3u_from_channels`, returning the text written to the
output file: the `#EXTM3U` header line, then for each channel its rebuilt
EXTINF line and its url line. -/
def create_m3u_from_channels (channels : List Channel) : Str :=
  str "#EXTM3U" ++ ('\n' :: (channels.map (fun ch =>
    build_extinf_line ch ++ ('\n' :: (ch.url ++ ['\n'])))).flatten)

/-- Python dict `.get(k, "")` on the attribute mapping. -/
def attrGet (d : List (Str × Str)) (k : Str) : Str :=
  match d.find? (fun p => p.1 = k) with
  | some p => p.2
  | none => []

/-- The per-record loop of `filter_channels` (keyword already stripped and
lowered). -/
def filterLoop (kw field : Str) : List Channel → List Channel
  | [] => []
  | ch :: rest =>
    let keep :=
      if field = str "title" then hasSubstr kw (ch.title.map pyLowerChar)
      else if field = str "group" then
        hasSubstr kw ((attrGet ch.attrs (str "group-title")).map pyLowerChar)
      else hasSubstr kw ((attrGet ch.attrs field).map pyLowerChar)
    if keep then ch :: filterLoop kw field rest else filterLoop kw field rest

/-- src/main.py `filter_channels`. -/
def filter_channels (channels : List Channel) (field keyword : Str) : List Channel :=
  if keyword = [] then channels
  else filterLoop ((pyStrip keyword).map pyLowerChar) field channels

example : parse_m3u_to_json
    (str "#EXTM3U\n#EXTINF:-1 tvg-id=\"1\" group-title=\"News\",Channel A\nhttp://x/a.ts\n") =
    [⟨str "Channel A", str "-1", [(str "tvg-id", str "1"), (str "group-title", str "News")],
      str "http://x/a.ts", str "#EXTINF:-1 tvg-id=\"1\" group-title=\"News\",Channel A"⟩] := by
  decide

example : parse_m3u_to_json (str "#EXTM3U\njunk\n#extinf:12abc a=\"x\",T,U\n\n# c\nu1\n#EXTINF:,\n") =
    [⟨str "T,U", str "12", [(str "a", str "x")], str "u1", str "#extinf:12abc a=\"x\",T,U"⟩,
     ⟨str "", str "", [], str "", str "#EXTINF:,"⟩] := by decide

example : create_m3u_from_channels
    [⟨str "A", str "-1", [(str "g", str "x")], str "http://u", str "raw"⟩] =
    str "#EXTM3U\n#EXTINF:-1 g=\"x\",A\nhttp://u\n" := by decide

/-! ## C2: the url lookahead -/

/-- C2 counterexample: in `"#EXTINF:-1,A\n#EXTINF:-1,B\nhttp://u"` a second
`#EXTINF` line stands between the first record's header and the next
non-`#` line.  The claim says the first record's url must then be empty;
the source instead skips the second `#EXTINF` line like any `#` line, takes
`http://u` as the first record's url, and never parses B at all. -/
theorem c2_counterexample_lookahead_skips_extinf :
    parse_m3u_to_json (str "#EXTINF:-1,A\n#EXTINF:-1,B\nhttp://u") =
      [⟨str "A", str "-1", [], str "http://u", str "#EXTINF:-1,A"⟩] := by decide

/-- The amended lookahead rule, written from the amended claim: the url is
the next line whose stripped form is non-blank and does not start with `#`
(other `#EXTINF` lines are skipped like any `#` line); empty when no such
line exists before end of input. -/
def nextUrlSpec : List Str → Str
  | [] => []
  | l :: ls =>
    let c := pyStrip l
    if c = [] ∨ c.head? = some '#' then nextUrlSpec ls else c

theorem findUrlSplit_fst_eq_nextUrlSpec (ls : List Str) :
    (findUrlSplit ls).1 = nextUrlSpec ls := by
  induction ls with
  | nil => rfl
  | cons l t ih =>
    rw [findUrlSplit, nextUrlSpec]
    split
    · exact ih
    · rfl

/-- C2 (amended): every channel record begun by an `#EXTINF` line receives as
url the next line whose stripped form is non-blank and does not start with
`#` — `#EXTINF` lines in between are skipped like any other `#` line — and
the empty string when no such line exists before end of input; parsing
resumes after the url line. -/
theorem c2_url_is_next_nonblank_noncomment (l : Str) (ls : List Str) (fuel : Nat)
    (hne : pyStrip l ≠ []) (hext : isExtinfLine (pyStrip l) = true) :
    parseLinesF (fuel + 1) (l :: ls) =
      ({ parseExtinf (pyStrip l) with url := nextUrlSpec ls }) ::
        parseLinesF fuel (findUrlSplit ls).2 := by
  rw [parseLinesF]
  simp only [hext, if_true, if_neg hne, findUrlSplit_fst_eq_nextUrlSpec]

/-- C2 witness: the amended lookahead theorem applied to a concrete record
whose url sits behind one blank and one comment line. -/
theorem c2_url_is_next_nonblank_noncomment_witness :
    parseLinesF 5 [str "#EXTINF:-1,A", str "", str "# note", str " http://u ", str "x"] =
      ({ parseExtinf (pyStrip (str "#EXTINF:-1,A")) with
          url := nextUrlSpec [str "", str "# note", str " http://u ", str "x"] }) ::
        parseLinesF 4 (findUrlSplit [str "", str "# note", str " http://u ", str "x"]).2 :=
  c2_url_is_next_nonblank_noncomment (str "#EXTINF:-1,A")
    [str "", str "# note", str " http://u ", str "x"] 4 (by decide) (by decide)

/-! ## C8: the channel filter -/

/-- C8 counterexample: the keyword `" "` is non-empty, so by the claim only
records whose title case-insensitively contains `" "` may be returned; the
source first strips the keyword (here to the empty string) and therefore
returns a record whose title does not contain the original keyword. -/
theorem c8_counterexample_keyword_stripped :
    filter_channels [⟨str "ab", str "-1", [], str "u", str "r"⟩] (str "title") (str " ") =
      [⟨str "ab", str "-1", [], str "u", str "r"⟩] ∧
    hasSubstr ((str " ").map pyLowerChar) ((str "ab").map pyLowerChar) = false := by
  constructor
  · decide
  · decide

/-- The amended claim's record predicate: the selected field (title for
"title", the group-title attribute for "group", otherwise the attribute named
by the field, missing read as empty) case-insensitively contains the
whitespace-stripped keyword. -/
def matchesKeyword (field kw : Str) (ch : Channel) : Bool :=
  if field = str "title" then hasSubstr kw (ch.title.map pyLowerChar)
  else if field = str "group" then
    hasSubstr kw ((attrGet ch.attrs (str "group-title")).map pyLowerChar)
  else hasSubstr kw ((attrGet ch.attrs field).map pyLowerChar)

theorem filterLoop_eq_filter (kw field : Str) (channels : List Channel) :
    filterLoop kw field channels = channels.filter (matchesKeyword field kw) := by
  induction channels with
  | nil => rfl
  | cons ch rest ih =>
    rw [filterLoop, List.filter_cons]
    simp only [matchesKeyword, ih]

/-- C8 (amended): with an empty keyword `filter_channels` returns the input
list unchanged in content and order; with a non-empty keyword it returns the
order-preserving subsequence of records whose selected field
case-insensitively contains the whitespace-stripped keyword as a substring. -/
theorem c8_filter_characterisation (channels : List Channel) (field keyword : Str) :
    filter_channels channels field keyword =
      if keyword = [] then channels
      else channels.filter (matchesKeyword field ((pyStrip keyword).map pyLowerChar)) := by
  rw [filter_channels]
  split
  · rfl
  · exact filterLoop_eq_filter _ _ _

/-! ## C1: the parse / rebuild round trip.

The development first establishes a well-formedness invariant on the
channels produced by the parser, then shows that serializing a well-formed
channel list and parsing it back reproduces the four payload fields. -/

theorem durChar_not_break {c : Char} (h : isDurChar c = true) : isLineBreakChar c = false := by
  simp only [isDurChar, Bool.or_eq_true, Bool.and_eq_true, decide_eq_true_eq] at h
  simp only [isLineBreakChar, Bool.or_eq_false_iff, decide_eq_false_iff_not]
  omega

theorem durChar_not_space {c : Char} (h : isDurChar c = true) : isPySpace c = false := by
  simp only [isDurChar, Bool.or_eq_true, Bool.and_eq_true, decide_eq_true_eq] at h
  simp only [isPySpace, Bool.or_eq_false_iff, Bool.and_eq_false_iff,
    decide_eq_false_iff_not, Decidable.not_not]
  omega

theorem durChar_ne_comma {c : Char} (h : isDurChar c = true) : c ≠ ',' := by
  rintro rfl; exact absurd h (by decide)

theorem keyChar_not_break {c : Char} (h : isKeyChar c = true) : isLineBreakChar c = false := by
  simp only [isKeyChar, Bool.or_eq_true, Bool.and_eq_true, decide_eq_true_eq] at h
  simp only [isLineBreakChar, Bool.or_eq_false_iff, decide_eq_false_iff_not]
  omega

theorem keyChar_not_space {c : Char} (h : isKeyChar c = true) : isPySpace c = false := by
  simp only [isKeyChar, Bool.or_eq_true, Bool.and_eq_true, decide_eq_true_eq] at h
  simp only [isPySpace, Bool.or_eq_false_iff, Bool.and_eq_false_iff,
    decide_eq_false_iff_not, Decidable.not_not]
  omega

theorem keyChar_ne_comma {c : Char} (h : isKeyChar c = true) : c ≠ ',' := by
  rintro rfl; exact absurd h (by decide)

theorem keyChar_ne_dquote {c : Char} (h : isKeyChar c = true) : c ≠ dquote := by
  rintro rfl; exact absurd h (by decide)

theorem keyChar_ne_eq {c : Char} (h : isKeyChar c = true) : c ≠ '=' := by
  rintro rfl; exact absurd h (by decide)

theorem durChar_keyChar {c : Char} (h : isDurChar c = true) : isKeyChar c = true := by
  simp only [isDurChar, Bool.or_eq_true, Bool.and_eq_true, decide_eq_true_eq] at h
  simp only [isKeyChar, Bool.or_eq_true, Bool.and_eq_true, decide_eq_true_eq]
  omega

/-- A string containing no line-boundary character. -/
def noBreakStr (s : Str) : Prop := ∀ c ∈ s, isLineBreakChar c = false

theorem rev_head?_mem {l : Str} {c : Char} (h : l.reverse.head? = some c) : c ∈ l := by
  cases hr : l.reverse with
  | nil => rw [hr] at h; cases h
  | cons d t =>
    rw [hr] at h
    cases h
    have : c ∈ l.reverse := by rw [hr]; simp
    simpa using this

theorem head?_mem {l : Str} {c : Char} (h : l.head? = some c) : c ∈ l := by
  cases l with
  | nil => cases h
  | cons d t => cases h; simp

/-! ### Fixpoint facts about pyStrip -/

theorem mem_pyRstrip {p : Char → Bool} {s : Str} {c : Char} (h : c ∈ pyRstrip p s) : c ∈ s := by
  rw [pyRstrip, List.mem_reverse] at h
  have := (List.dropWhile_sublist p).subset h
  simpa using this

theorem mem_pyStrip {s : Str} {c : Char} (h : c ∈ pyStrip s) : c ∈ s := by
  rw [pyStrip, pyLstrip] at h
  exact mem_pyRstrip ((List.dropWhile_sublist isPySpace).subset h)

theorem suffix_reverse_head? {z y : Str} (h : z <:+ y) (hz : z ≠ []) :
    y.reverse.head? = z.reverse.head? := by
  obtain ⟨a, rfl⟩ := h
  exact reverse_head?_append hz

theorem pyStrip_eq_self {s : Str}
    (h1 : ∀ c, s.head? = some c → isPySpace c = false)
    (h2 : ∀ c, s.reverse.head? = some c → isPySpace c = false) : pyStrip s = s := by
  rw [pyStrip, pyLstrip, pyRstrip_eq_self h2, dropWhile_eq_self h1]

theorem pyStrip_self_head {s : Str} (h : pyStrip s = s) :
    ∀ c, s.head? = some c → isPySpace c = false := by
  intro c hc
  rw [← h, pyStrip, pyLstrip] at hc
  exact dropWhile_head_false hc

theorem pyStrip_suffix_rstrip (s : Str) : pyStrip s <:+ pyRstrip isPySpace s := by
  rw [pyStrip, pyLstrip]
  exact List.dropWhile_suffix isPySpace

theorem pyStrip_self_last {s : Str} (h : pyStrip s = s) :
    ∀ c, s.reverse.head? = some c → isPySpace c = false := by
  intro c hc
  have hne : s ≠ [] := by rintro rfl; cases hc
  have hsuf : s <:+ pyRstrip isPySpace s := by
    conv_lhs => rw [← h]
    exact pyStrip_suffix_rstrip s
  have heq := suffix_reverse_head? hsuf hne
  refine pyRstrip_reverse_head (s := s) ?_
  rw [heq]
  exact hc

theorem pyStrip_idem (s : Str) : pyStrip (pyStrip s) = pyStrip s := by
  refine pyStrip_eq_self ?_ ?_
  · intro d hd
    rw [pyStrip, pyLstrip] at hd
    exact dropWhile_head_false hd
  · intro d hd
    have hne : pyStrip s ≠ [] := by rintro h0; rw [h0] at hd; cases hd
    have heq := suffix_reverse_head? (pyStrip_suffix_rstrip s) hne
    refine pyRstrip_reverse_head (s := s) ?_
    rw [heq]
    exact hd

theorem pyRstrip_isNewline_eq_self {l : Str} (h : noBreakStr l) : pyRstrip isNewline l = l := by
  apply pyRstrip_eq_self
  intro c hc
  have hm := rev_head?_mem hc
  have := h c hm
  simp only [isNewline]
  rw [decide_eq_false_iff_not]
  rintro rfl
  exact absurd this (by decide)

/-! ### splitlines of break-free lines -/

theorem splitlinesAux_step {cur : Str} {c : Char} {rest : Str} (hb : isLineBreakChar c = false) :
    splitlinesAux cur (c :: rest) = splitlinesAux (c :: cur) rest := by
  have hc : c ≠ '\x0d' := by rintro rfl; exact absurd hb (by decide)
  cases rest with
  | nil => simp [splitlinesAux, hb]
  | cons d r2 =>
    by_cases hd : d = '\n'
    · subst hd
      conv_lhs => rw [splitlinesAux.eq_def]
      simp [hc, hb]
    · conv_lhs => rw [splitlinesAux.eq_def]
      simp [hc, hb, hd]

theorem splitlinesAux_newline (cur s : Str) :
    splitlinesAux cur ('\n' :: s) = cur.reverse :: splitlinesAux [] s := rfl

theorem splitlinesAux_append_nl {a : Str} (s cur : Str) (h : noBreakStr a) :
    splitlinesAux cur (a ++ '\n' :: s) = (cur.reverse ++ a) :: splitlinesAux [] s := by
  induction a generalizing cur with
  | nil => simp [splitlinesAux_newline]
  | cons c t ih =>
    have hc : isLineBreakChar c = false := h c (by simp)
    rw [List.cons_append, splitlinesAux_step hc, ih (c :: cur) (fun d hd => h d (by simp [hd]))]
    simp

theorem splitlines_cons_line {a : Str} (s : Str) (h : noBreakStr a) :
    splitlines (a ++ '\n' :: s) = a :: splitlines s := by
  rw [splitlines, splitlinesAux_append_nl s [] h]
  rfl

theorem splitlines_no_break : ∀ (n : Nat) (s cur : Str), s.length ≤ n → noBreakStr cur →
    ∀ l ∈ splitlinesAux cur s, noBreakStr l := by
  intro n
  induction n with
  | zero =>
    intro s cur hlen hcur l hl
    have hs : s = [] := List.eq_nil_of_length_eq_zero (Nat.le_zero.mp hlen)
    subst hs
    rw [splitlinesAux] at hl
    split at hl
    · cases hl
    · simp only [List.mem_singleton] at hl
      subst hl
      intro c hc
      exact hcur c (by simpa using hc)
  | succ n ih =>
    intro s cur hlen hcur l hl
    cases s with
    | nil =>
      rw [splitlinesAux] at hl
      split at hl
      · cases hl
      · simp only [List.mem_singleton] at hl
        subst hl
        intro c hc
        exact hcur c (by simpa using hc)
    | cons c rest =>
      by_cases hb : isLineBreakChar c = true
      · by_cases hcr : c = '\x0d' ∧ rest.head? = some '\n'
        · obtain ⟨rfl, hh⟩ := hcr
          cases rest with
          | nil => cases hh
          | cons d r2 =>
            cases hh
            rw [show splitlinesAux cur ('\x0d' :: '\n' :: r2) =
                cur.reverse :: splitlinesAux [] r2 from rfl] at hl
            rcases List.mem_cons.mp hl with rfl | hl
            · intro x hx; exact hcur x (by simpa using hx)
            · exact ih r2 [] (by simp only [List.length_cons] at hlen; omega)
                (by intro x hx; cases hx) l hl
        · have hstep : splitlinesAux cur (c :: rest) = cur.reverse :: splitlinesAux [] rest := by
            by_cases hc : c = '\x0d'
            · subst hc
              cases rest with
              | nil => rfl
              | cons d r2 =>
                have hd : d ≠ '\n' := by
                  intro hdd
                  exact hcr ⟨rfl, by rw [hdd]; rfl⟩
                conv_lhs => rw [splitlinesAux.eq_def]
                simp [hd, hb]
            · conv_lhs => rw [splitlinesAux.eq_def]
              cases rest with
              | nil => simp [hb]
              | cons d r2 =>
                by_cases hd : d = '\n' <;> simp [hc, hb, hd]
          rw [hstep] at hl
          rcases List.mem_cons.mp hl with rfl | hl
          · intro x hx; exact hcur x (by simpa using hx)
          · exact ih rest [] (by simp only [List.length_cons] at hlen; omega)
              (by intro x hx; cases hx) l hl
      · rw [splitlinesAux_step (Bool.eq_false_iff.mpr hb)] at hl
        refine ih rest (c :: cur) (by simp only [List.length_cons] at hlen; omega) ?_ l hl
        intro x hx
        rcases List.mem_cons.mp hx with rfl | hx
        · exact Bool.eq_false_iff.mpr hb
        · exact hcur x hx

theorem splitlines_mem_no_break {s : Str} : ∀ l ∈ splitlines s, noBreakStr l := by
  intro l hl
  exact splitlines_no_break s.length s [] le_rfl (by intro x hx; cases hx) l hl

/-! ### Runs under takeWhile and dropWhile -/

theorem takeWhile_append_all {p : Char → Bool} {a : Str} (b : Str) (h : ∀ c ∈ a, p c = true) :
    (a ++ b).takeWhile p = a ++ b.takeWhile p := by
  induction a with
  | nil => simp
  | cons c t ih =>
    rw [List.cons_append, List.takeWhile_cons_of_pos (h c (by simp)),
      ih (fun d hd => h d (by simp [hd]))]
    rfl

theorem dropWhile_append_all {p : Char → Bool} {a : Str} (b : Str) (h : ∀ c ∈ a, p c = true) :
    (a ++ b).dropWhile p = b.dropWhile p := by
  induction a with
  | nil => simp
  | cons c t ih =>
    rw [List.cons_append, List.dropWhile_cons_of_pos (h c (by simp))]
    exact ih (fun d hd => h d (by simp [hd]))

theorem takeWhile_head_neg {p : Char → Bool} {b : Str}
    (h : ∀ d, b.head? = some d → p d = false) : b.takeWhile p = [] := by
  cases b with
  | nil => rfl
  | cons d t => exact List.takeWhile_cons_of_neg (by simp [h d rfl])

theorem takeWhile_exact {p : Char → Bool} {a : Str} (b : Str) (h : ∀ c ∈ a, p c = true)
    (hb : ∀ d, b.head? = some d → p d = false) : (a ++ b).takeWhile p = a := by
  rw [takeWhile_append_all b h, takeWhile_head_neg hb, List.append_nil]

theorem dropWhile_exact {p : Char → Bool} {a : Str} (b : Str) (h : ∀ c ∈ a, p c = true)
    (hb : ∀ d, b.head? = some d → p d = false) : (a ++ b).dropWhile p = b := by
  rw [dropWhile_append_all b h, dropWhile_eq_self hb]

/-! ### splitFirstComma -/

theorem splitFirstComma_append {a : Str} (b : Str) (h : ',' ∉ a) :
    splitFirstComma (a ++ ',' :: b) = (a, some b) := by
  induction a with
  | nil => simp [splitFirstComma]
  | cons c t ih =>
    have hc : c ≠ ',' := by rintro rfl; exact h (by simp)
    rw [List.cons_append, splitFirstComma, if_neg hc, ih (fun hm => h (by simp [hm]))]

theorem splitFirstComma_fst_no_comma (s : Str) : ',' ∉ (splitFirstComma s).1 := by
  induction s with
  | nil => simp [splitFirstComma]
  | cons c t ih =>
    rw [splitFirstComma]
    by_cases hc : c = ','
    · simp [hc]
    · simp only [if_neg hc, List.mem_cons, not_or]
      exact ⟨fun h => hc h.symm, ih⟩

theorem splitFirstComma_fst_subset {s : Str} : ∀ c ∈ (splitFirstComma s).1, c ∈ s := by
  induction s with
  | nil => simp [splitFirstComma]
  | cons c t ih =>
    rw [splitFirstComma]
    by_cases hc : c = ','
    · simp [hc]
    · simp only [if_neg hc]
      intro d hd
      rcases List.mem_cons.mp hd with rfl | hd
      · simp
      · exact List.mem_cons_of_mem c (ih d hd)

theorem splitFirstComma_snd_subset {s t : Str} (h : (splitFirstComma s).2 = some t) :
    ∀ c ∈ t, c ∈ s := by
  induction s generalizing t with
  | nil => cases h
  | cons c r ih =>
    rw [splitFirstComma] at h
    by_cases hc : c = ','
    · rw [if_pos hc] at h
      cases h
      intro d hd
      exact List.mem_cons_of_mem c hd
    · rw [if_neg hc] at h
      intro d hd
      exact List.mem_cons_of_mem c (ih h d hd)

/-! ### The duration capture -/

theorem durOf_all_durChar (h : Str) : ∀ c ∈ durOf h, isDurChar c = true := by
  rw [durOf]
  split
  · intro c hc
    exact List.mem_takeWhile_imp hc
  · simp

theorem durOf_canonical {dur : Str} (tail : Str) (hdur : ∀ c ∈ dur, isDurChar c = true)
    (htail : ∀ d, tail.head? = some d → isDurChar d = false) :
    durOf (str "#EXTINF:" ++ (dur ++ tail)) = dur := by
  rw [durOf, if_pos]
  · have hdrop : (str "#EXTINF:" ++ (dur ++ tail)).drop 8 = dur ++ tail := by
      have h8 : 8 = (str "#EXTINF:").length := rfl
      rw [h8, List.drop_left]
    rw [hdrop]
    exact takeWhile_exact tail hdur htail
  · rw [List.map_append]
    have hlow : (str "#EXTINF:").map pyLowerChar = str "#extinf:" := by decide
    rw [hlow]
    exact isPrefixOf_append (str "#extinf:") _

/-! ### The attribute scanner -/

theorem findAttrsF_nil : ∀ fuel, findAttrsF fuel [] = [] := by
  intro fuel; cases fuel <;> rfl

theorem findAttrsF_skip {fuel : Nat} {c : Char} (rest : Str) (hc : isKeyChar c = false) :
    findAttrsF (fuel + 1) (c :: rest) = findAttrsF fuel rest := by
  simp [findAttrsF, hc]

theorem findAttrsF_run_skip {fuel : Nat} {k : Str} (after : Str)
    (hk : ∀ c ∈ k, isKeyChar c = true) (hne : k ≠ [])
    (hafter : ∀ d, after.head? = some d → isKeyChar d = false)
    (hnm : after.take 2 ≠ ['=', dquote]) :
    findAttrsF (fuel + 1) (k ++ after) = findAttrsF fuel after := by
  obtain ⟨c, k', rfl⟩ := List.exists_cons_of_ne_nil hne
  rw [List.cons_append]
  have hdw : (k' ++ after).dropWhile isKeyChar = after :=
    dropWhile_exact after (fun d hd => hk d (by simp [hd])) hafter
  simp only [findAttrsF, hk c (by simp), if_true, hdw, if_neg hnm]

theorem findAttrsF_run_match {fuel : Nat} {k v : Str} (rest : Str)
    (hk : ∀ c ∈ k, isKeyChar c = true) (hne : k ≠ [])
    (hv : ∀ c ∈ v, c ≠ dquote) :
    findAttrsF (fuel + 1) (k ++ ('=' :: dquote :: (v ++ dquote :: rest))) =
      (k, v) :: findAttrsF fuel rest := by
  obtain ⟨c, k', rfl⟩ := List.exists_cons_of_ne_nil hne
  rw [List.cons_append]
  have hnotkey : ∀ d, ('=' :: dquote :: (v ++ dquote :: rest)).head? = some d →
      isKeyChar d = false := by
    intro d hd; cases hd; decide
  have hdw : (k' ++ ('=' :: dquote :: (v ++ dquote :: rest))).dropWhile isKeyChar =
      '=' :: dquote :: (v ++ dquote :: rest) :=
    dropWhile_exact _ (fun d hd => hk d (by simp [hd])) hnotkey
  have htw : (k' ++ ('=' :: dquote :: (v ++ dquote :: rest))).takeWhile isKeyChar = k' :=
    takeWhile_exact _ (fun d hd => hk d (by simp [hd])) hnotkey
  have hvtake : (v ++ dquote :: rest).takeWhile (fun d => decide (d ≠ dquote)) = v := by
    refine takeWhile_exact _ (fun d hd => by simp [hv d hd]) ?_
    intro d hd; cases hd; simp
  have hvdrop : (v ++ dquote :: rest).dropWhile (fun d => decide (d ≠ dquote)) =
      dquote :: rest := by
    refine dropWhile_exact _ (fun d hd => by simp [hv d hd]) ?_
    intro d hd; cases hd; simp
  simp only [findAttrsF, hk c (by simp), if_true, hdw, htw, List.take, List.drop, hvtake, hvdrop]
  simp

/-- One serialized `key="value"` segment (value already quote-free). -/
def attrText (p : Str × Str) : Str := p.1 ++ ('=' :: dquote :: (p.2 ++ [dquote]))

/-- The serialized attribute segment: space-joined `key="value"` parts. -/
def attrsJoin (attrs : List (Str × Str)) : Str := joinSpace (attrs.map attrText)

theorem joinSpace_cons_cons (x y : Str) (ys : List Str) :
    joinSpace (x :: y :: ys) = x ++ (' ' :: joinSpace (y :: ys)) := rfl

theorem attrText_length (p : Str × Str) :
    (attrText p).length = p.1.length + p.2.length + 3 := by
  simp [attrText]
  omega

theorem findAttrsF_attrsJoin : ∀ (attrs : List (Str × Str)) (fuel : Nat),
    (attrsJoin attrs).length ≤ fuel →
    (∀ p ∈ attrs, p.1 ≠ [] ∧ (∀ c ∈ p.1, isKeyChar c = true) ∧ (∀ c ∈ p.2, c ≠ dquote)) →
    findAttrsF fuel (attrsJoin attrs) = attrs := by
  intro attrs
  induction attrs with
  | nil => intro fuel _ _; exact findAttrsF_nil fuel
  | cons p rest ih =>
    intro fuel hlen hwf
    obtain ⟨hk0, hk, hv⟩ := hwf p (by simp)
    cases rest with
    | nil =>
      have hj : attrsJoin [p] = p.1 ++ ('=' :: dquote :: (p.2 ++ dquote :: [])) := rfl
      rw [hj] at hlen ⊢
      have hlen1 : 1 ≤ fuel := by
        simp only [List.length_append, List.length_cons] at hlen
        have := List.length_pos.mpr hk0
        omega
      obtain ⟨f, rfl⟩ : ∃ f, fuel = f + 1 := ⟨fuel - 1, by omega⟩
      rw [findAttrsF_run_match [] hk hk0 hv, findAttrsF_nil]
    | cons q rest' =>
      have hj : attrsJoin (p :: q :: rest') =
          p.1 ++ ('=' :: dquote :: (p.2 ++ dquote :: (' ' :: attrsJoin (q :: rest')))) := by
        show joinSpace (attrText p :: attrText q :: (rest'.map attrText)) = _
        rw [joinSpace_cons_cons]
        simp [attrText, attrsJoin, List.append_assoc]
      rw [hj] at hlen ⊢
      have hlen' : p.1.length + p.2.length + 4 + (attrsJoin (q :: rest')).length ≤ fuel := by
        simp only [List.length_append, List.length_cons] at hlen
        omega
      have hk0' := List.length_pos.mpr hk0
      obtain ⟨f, rfl⟩ : ∃ f, fuel = f + 1 := ⟨fuel - 1, by omega⟩
      rw [findAttrsF_run_match _ hk hk0 hv]
      obtain ⟨f2, rfl⟩ : ∃ f2, f = f2 + 1 := ⟨f - 1, by omega⟩
      rw [findAttrsF_skip _ (by decide)]
      have hrest : (attrsJoin (q :: rest')).length ≤ f2 := by omega
      rw [ih f2 hrest (fun x hx => hwf x (by simp [hx]))]

theorem findAttrsF_header_nodur (dur : Str) (hdur : ∀ c ∈ dur, isDurChar c = true) :
    ∀ fuel, (str "#EXTINF:" ++ dur).length ≤ fuel →
    findAttrsF fuel (str "#EXTINF:" ++ dur) = [] := by
  intro fuel hlen
  have hlen8 : 8 + dur.length ≤ fuel := by
    simpa [List.length_append] using hlen
  have e1 : str "#EXTINF:" ++ dur = '#' :: (str "EXTINF" ++ (':' :: dur)) := rfl
  obtain ⟨f, rfl⟩ : ∃ f, fuel = f + 1 := ⟨fuel - 1, by omega⟩
  rw [e1, findAttrsF_skip _ (by decide)]
  obtain ⟨f2, rfl⟩ : ∃ f2, f = f2 + 1 := ⟨f - 1, by omega⟩
  rw [findAttrsF_run_skip (':' :: dur) (by decide) (by decide)
    (fun d hd => by cases hd; decide) ?_]
  · obtain ⟨f3, rfl⟩ : ∃ f3, f2 = f3 + 1 := ⟨f2 - 1, by omega⟩
    rw [findAttrsF_skip _ (by decide)]
    cases hd : dur with
    | nil => exact findAttrsF_nil f3
    | cons c t =>
      obtain ⟨f4, rfl⟩ : ∃ f4, f3 = f4 + 1 := ⟨f3 - 1, by omega⟩
      have : dur ++ ([] : Str) = dur := List.append_nil dur
      rw [← hd, ← this, findAttrsF_run_skip [] (fun x hx => durChar_keyChar (hdur x hx))
        (by rw [hd]; simp) (fun d hdd => by cases hdd) (by simp), findAttrsF_nil]
  · intro hcon
    rw [List.take_succ_cons] at hcon
    injection hcon with hcon1 _
    exact absurd hcon1 (by decide)

theorem findAttrsF_header_attrs (dur : Str) (attrs : List (Str × Str))
    (hdur : ∀ c ∈ dur, isDurChar c = true)
    (hwf : ∀ p ∈ attrs, p.1 ≠ [] ∧ (∀ c ∈ p.1, isKeyChar c = true) ∧ (∀ c ∈ p.2, c ≠ dquote)) :
    ∀ fuel, ((str "#EXTINF:" ++ dur) ++ (' ' :: attrsJoin attrs)).length ≤ fuel →
    findAttrsF fuel ((str "#EXTINF:" ++ dur) ++ (' ' :: attrsJoin attrs)) = attrs := by
  intro fuel hlen
  have hlen8 : 8 + dur.length + 1 + (attrsJoin attrs).length ≤ fuel := by
    simp only [List.length_append, List.length_cons] at hlen
    have : (str "#EXTINF:").length = 8 := rfl
    omega
  have e1 : (str "#EXTINF:" ++ dur) ++ (' ' :: attrsJoin attrs) =
      '#' :: (str "EXTINF" ++ (':' :: (dur ++ (' ' :: attrsJoin attrs)))) := by
    rw [List.append_assoc]
    rfl
  obtain ⟨f, rfl⟩ : ∃ f, fuel = f + 1 := ⟨fuel - 1, by omega⟩
  rw [e1, findAttrsF_skip _ (by decide)]
  obtain ⟨f2, rfl⟩ : ∃ f2, f = f2 + 1 := ⟨f - 1, by omega⟩
  rw [findAttrsF_run_skip (':' :: (dur ++ (' ' :: attrsJoin attrs))) (by decide) (by decide)
    (fun d hd => by cases hd; decide) ?_]
  · obtain ⟨f3, rfl⟩ : ∃ f3, f2 = f3 + 1 := ⟨f2 - 1, by omega⟩
    rw [findAttrsF_skip _ (by decide)]
    cases hd : dur with
    | nil =>
      simp only [hd, List.nil_append]
      obtain ⟨f4, rfl⟩ : ∃ f4, f3 = f4 + 1 := ⟨f3 - 1, by omega⟩
      rw [findAttrsF_skip _ (by decide)]
      exact findAttrsF_attrsJoin attrs f4 (by omega) hwf
    | cons c t =>
      rw [← hd]
      obtain ⟨f4, rfl⟩ : ∃ f4, f3 = f4 + 1 := ⟨f3 - 1, by omega⟩
      rw [findAttrsF_run_skip (' ' :: attrsJoin attrs)
        (fun x hx => durChar_keyChar (hdur x hx)) (by rw [hd]; simp)
        (fun d hdd => by cases hdd; decide) ?_]
      · obtain ⟨f5, rfl⟩ : ∃ f5, f4 = f5 + 1 := ⟨f4 - 1, by omega⟩
        rw [findAttrsF_skip _ (by decide)]
        exact findAttrsF_attrsJoin attrs f5 (by omega) hwf
      · intro hcon
        rw [List.take_succ_cons] at hcon
        injection hcon with hcon1 _
        exact absurd hcon1 (by decide)
  · intro hcon
    rw [List.take_succ_cons] at hcon
    injection hcon with hcon1 _
    exact absurd hcon1 (by decide)

theorem findAttrsF_sound : ∀ (fuel : Nat) (s : Str), ∀ kv ∈ findAttrsF fuel s,
    kv.1 ≠ [] ∧ (∀ c ∈ kv.1, isKeyChar c = true) ∧ (∀ c ∈ kv.2, c ≠ dquote ∧ c ∈ s) := by
  intro fuel
  induction fuel with
  | zero => intro s kv hkv; rw [findAttrsF] at hkv; cases hkv
  | succ fuel ih =>
    intro s kv hkv
    cases s with
    | nil => rw [findAttrsF_nil] at hkv; cases hkv
    | cons c rest =>
      have hsub_after : ∀ d, d ∈ rest.dropWhile isKeyChar → d ∈ c :: rest :=
        fun d hd => List.mem_cons_of_mem c ((List.dropWhile_sublist _).subset hd)
      have hsub_tail : ∀ d, d ∈ (rest.dropWhile isKeyChar).drop 2 → d ∈ c :: rest :=
        fun d hd => hsub_after d (List.drop_subset _ _ hd)
      by_cases hk : isKeyChar c = true
      · simp only [findAttrsF, hk, if_true] at hkv
        split at hkv
        · split at hkv
          · cases hkv
          · rcases List.mem_cons.mp hkv with rfl | hkv
            · dsimp only
              refine ⟨by simp, ?_, ?_⟩
              · intro d hd
                rcases List.mem_cons.mp hd with rfl | hd
                · exact hk
                · exact List.mem_takeWhile_imp hd
              · intro d hd
                have hdq := List.mem_takeWhile_imp hd
                exact ⟨by simpa using hdq, hsub_tail d ((List.takeWhile_sublist _).subset hd)⟩
            · obtain ⟨g1, g2, g3⟩ := ih _ kv hkv
              refine ⟨g1, g2, fun d hd => ⟨(g3 d hd).1, ?_⟩⟩
              have h1 : d ∈ ((rest.dropWhile isKeyChar).drop 2).dropWhile
                  (fun x => decide (x ≠ dquote)) :=
                (List.tail_sublist _).subset (g3 d hd).2
              exact hsub_tail d ((List.dropWhile_sublist _).subset h1)
        · obtain ⟨g1, g2, g3⟩ := ih _ kv hkv
          exact ⟨g1, g2, fun d hd => ⟨(g3 d hd).1, hsub_after d (g3 d hd).2⟩⟩
      · rw [findAttrsF_skip rest (Bool.eq_false_iff.mpr hk)] at hkv
        obtain ⟨g1, g2, g3⟩ := ih rest kv hkv
        exact ⟨g1, g2, fun d hd => ⟨(g3 d hd).1, List.mem_cons_of_mem c (g3 d hd).2⟩⟩

theorem mem_joinSpace {c : Char} : ∀ {L : List Str}, c ∈ joinSpace L →
    c = ' ' ∨ ∃ x ∈ L, c ∈ x := by
  intro L
  induction L with
  | nil => intro h; cases h
  | cons x t ih =>
    cases t with
    | nil =>
      intro h
      exact Or.inr ⟨x, by simp, by simpa [joinSpace] using h⟩
    | cons y ys =>
      intro h
      rw [joinSpace_cons_cons] at h
      rcases List.mem_append.mp h with hx | hs
      · exact Or.inr ⟨x, by simp, hx⟩
      · rcases List.mem_cons.mp hs with rfl | hs
        · exact Or.inl rfl
        · rcases ih hs with h' | ⟨z, hz, hcz⟩
          · exact Or.inl h'
          · exact Or.inr ⟨z, List.mem_cons_of_mem x hz, hcz⟩

theorem mem_attrText {c : Char} {p : Str × Str} (h : c ∈ attrText p) :
    c ∈ p.1 ∨ c = '=' ∨ c = dquote ∨ c ∈ p.2 := by
  rw [attrText] at h
  rcases List.mem_append.mp h with h1 | h2
  · exact Or.inl h1
  · rcases List.mem_cons.mp h2 with rfl | h3
    · exact Or.inr (Or.inl rfl)
    · rcases List.mem_cons.mp h3 with rfl | h4
      · exact Or.inr (Or.inr (Or.inl rfl))
      · rcases List.mem_append.mp h4 with h5 | h6
        · exact Or.inr (Or.inr (Or.inr h5))
        · rcases List.mem_singleton.mp h6 with rfl
          exact Or.inr (Or.inr (Or.inl rfl))

theorem attrsJoin_ne_nil {attrs : List (Str × Str)} (hne : attrs ≠ [])
    (hk : ∀ p ∈ attrs, p.1 ≠ []) : attrsJoin attrs ≠ [] := by
  cases attrs with
  | nil => exact absurd rfl hne
  | cons p rest =>
    cases rest with
    | nil =>
      show attrText p ≠ []
      rw [attrText]
      intro h
      rcases List.append_eq_nil.mp h with ⟨h1, _⟩
      exact hk p (by simp) h1
    | cons q rest' =>
      show attrText p ++ (' ' :: joinSpace _) ≠ []
      simp

/-! ### dict construction -/

theorem dictInsert_mem {d : List (Str × Str)} {k v : Str} :
    ∀ p ∈ dictInsert d k v, p ∈ d ∨ p = (k, v) := by
  intro p hp
  rw [dictInsert] at hp
  split at hp
  · rcases List.mem_map.mp hp with ⟨q, hq, heq⟩
    split at heq
    · exact Or.inr heq.symm
    · exact Or.inl (heq ▸ hq)
  · rcases List.mem_append.mp hp with h1 | h2
    · exact Or.inl h1
    · exact Or.inr (List.mem_singleton.mp h2)

theorem dictOf_foldl_pred (P : Str × Str → Prop) :
    ∀ (l acc : List (Str × Str)), (∀ p ∈ acc, P p) → (∀ p ∈ l, P p) →
    ∀ p ∈ l.foldl (fun d q => dictInsert d q.1 q.2) acc, P p := by
  intro l
  induction l with
  | nil => intro acc hacc _ p hp; exact hacc p hp
  | cons q rest ih =>
    intro acc hacc hl p hp
    rw [List.foldl_cons] at hp
    refine ih (dictInsert acc q.1 q.2) ?_ (fun x hx => hl x (by simp [hx])) p hp
    intro x hx
    rcases dictInsert_mem x hx with h1 | h2
    · exact hacc x h1
    · rw [h2]
      exact hl q (by simp)

theorem dictOf_subset {l : List (Str × Str)} : ∀ p ∈ dictOf l, p ∈ l := by
  intro p hp
  exact dictOf_foldl_pred (fun q => q ∈ l) l [] (by intro x hx; cases hx) (fun x hx => hx) p hp

theorem dictInsert_keys_replace {d : List (Str × Str)} {k v : Str}
    (h : d.any (fun p => decide (p.1 = k)) = true) :
    (dictInsert d k v).map Prod.fst = d.map Prod.fst := by
  rw [dictInsert, if_pos h, List.map_map]
  apply List.map_congr_left
  intro p _
  simp only [Function.comp_apply]
  split
  · next heq => exact heq.symm
  · rfl

theorem dictInsert_keys_new {d : List (Str × Str)} {k v : Str}
    (h : ¬ d.any (fun p => decide (p.1 = k)) = true) :
    (dictInsert d k v).map Prod.fst = d.map Prod.fst ++ [k] := by
  rw [dictInsert, if_neg h]
  simp

theorem not_any_key {d : List (Str × Str)} {k : Str}
    (h : ¬ d.any (fun p => decide (p.1 = k)) = true) : k ∉ d.map Prod.fst := by
  intro hmem
  rcases List.mem_map.mp hmem with ⟨p, hp, heq⟩
  exact h (List.any_eq_true.mpr ⟨p, hp, by simp [heq]⟩)

theorem dictOf_keys_nodup_aux :
    ∀ (l acc : List (Str × Str)), (acc.map Prod.fst).Nodup →
    ((l.foldl (fun d q => dictInsert d q.1 q.2) acc).map Prod.fst).Nodup := by
  intro l
  induction l with
  | nil => intro acc h; exact h
  | cons q rest ih =>
    intro acc hacc
    rw [List.foldl_cons]
    by_cases hany : acc.any (fun p => decide (p.1 = q.1)) = true
    · refine ih _ ?_
      rw [dictInsert_keys_replace hany]
      exact hacc
    · refine ih _ ?_
      rw [dictInsert_keys_new hany]
      simp only [List.nodup_append, List.nodup_singleton]
      exact ⟨hacc, trivial, by simpa using not_any_key hany⟩

theorem dictOf_keys_nodup (l : List (Str × Str)) : ((dictOf l).map Prod.fst).Nodup :=
  dictOf_keys_nodup_aux l [] (by simp)

theorem dictOf_eq_self_aux :
    ∀ (l acc : List (Str × Str)), (((acc ++ l).map Prod.fst).Nodup) →
    l.foldl (fun d q => dictInsert d q.1 q.2) acc = acc ++ l := by
  intro l
  induction l with
  | nil => intro acc _; simp
  | cons q rest ih =>
    intro acc hnd
    rw [List.foldl_cons]
    have hkey : ¬ acc.any (fun p => decide (p.1 = q.1)) = true := by
      intro hany
      rcases List.any_eq_true.mp hany with ⟨p, hp, hpq⟩
      have hpq' : p.1 = q.1 := by simpa using hpq
      rw [List.map_append] at hnd
      have hdis := (List.nodup_append.mp hnd).2.2
      exact hdis (List.mem_map.mpr ⟨p, hp, hpq'⟩) (by simp)
    rw [dictInsert, if_neg hkey]
    have : (acc ++ [(q.1, q.2)]) ++ rest = acc ++ q :: rest := by simp
    rw [← this] at hnd ⊢
    exact ih (acc ++ [(q.1, q.2)]) hnd

theorem dictOf_eq_self {l : List (Str × Str)} (h : (l.map Prod.fst).Nodup) : dictOf l = l :=
  dictOf_eq_self_aux l [] (by simpa using h)

/-! ### The url lookahead and the parser invariant -/

theorem findUrlSplit_fst_nil : ∀ {ls : List Str}, (findUrlSplit ls).1 = [] →
    (findUrlSplit ls).2 = [] := by
  intro ls
  induction ls with
  | nil => intro _; rfl
  | cons l t ih =>
    rw [findUrlSplit]
    split
    · exact ih
    · next hcond =>
      intro h
      exact absurd h (by simpa using (not_or.mp hcond).1)

theorem findUrlSplit_snd_subset : ∀ {ls : List Str}, ∀ x ∈ (findUrlSplit ls).2, x ∈ ls := by
  intro ls
  induction ls with
  | nil => intro x hx; cases hx
  | cons l t ih =>
    rw [findUrlSplit]
    split
    · intro x hx
      exact List.mem_cons_of_mem l (ih x hx)
    · intro x hx
      exact List.mem_cons_of_mem l hx

theorem findUrlSplit_fst_props : ∀ (ls : List Str), (findUrlSplit ls).1 = [] ∨
    (pyStrip (findUrlSplit ls).1 = (findUrlSplit ls).1 ∧ (findUrlSplit ls).1 ≠ [] ∧
     (findUrlSplit ls).1.head? ≠ some '#' ∧ ∃ l ∈ ls, ∀ c ∈ (findUrlSplit ls).1, c ∈ l) := by
  intro ls
  induction ls with
  | nil => exact Or.inl rfl
  | cons l t ih =>
    rw [findUrlSplit]
    split
    · rcases ih with h | ⟨h1, h2, h3, l', hl', h4⟩
      · exact Or.inl h
      · exact Or.inr ⟨h1, h2, h3, l', List.mem_cons_of_mem l hl', h4⟩
    · next hcond =>
      rw [not_or] at hcond
      exact Or.inr ⟨pyStrip_idem l, hcond.1, hcond.2,
        l, by simp, fun c hc => mem_pyStrip hc⟩

theorem parseLinesF_nil : ∀ fuel, parseLinesF fuel [] = [] := by
  intro fuel; cases fuel <;> rfl

/-- The well-formedness invariant satisfied by every channel the parser
produces, and everything the round trip needs about one record. -/
def WFchan (ch : Channel) : Prop :=
  pyStrip ch.title = ch.title ∧ noBreakStr ch.title ∧
  (∀ c ∈ ch.duration, isDurChar c = true) ∧
  ((ch.attrs.map Prod.fst).Nodup) ∧
  (∀ p ∈ ch.attrs, p.1 ≠ [] ∧ (∀ c ∈ p.1, isKeyChar c = true) ∧
    (∀ c ∈ p.2, c ≠ dquote ∧ c ≠ ',' ∧ isLineBreakChar c = false)) ∧
  (ch.url = [] ∨ (pyStrip ch.url = ch.url ∧ ch.url ≠ [] ∧ ch.url.head? ≠ some '#' ∧
    noBreakStr ch.url))

/-- Only the last parsed record may carry an empty url (an empty url means
the lookahead exhausted the input, which ends the parse). -/
def lastOnlyEmptyUrl : List Channel → Prop
  | [] => True
  | ch :: rest => (rest = [] ∨ ch.url ≠ []) ∧ lastOnlyEmptyUrl rest

theorem parseExtinf_wf {ln : Str} (hnb : noBreakStr ln) (u : Str)
    (hu : u = [] ∨ (pyStrip u = u ∧ u ≠ [] ∧ u.head? ≠ some '#' ∧ noBreakStr u)) :
    WFchan { parseExtinf ln with url := u } := by
  refine ⟨?_, ?_, ?_, ?_, ?_, hu⟩
  · show pyStrip (parseExtinf ln).title = _
    rw [parseExtinf]
    cases hsp : (splitFirstComma ln).2 with
    | none => simp; rfl
    | some t => simp [pyStrip_idem]
  · show noBreakStr (parseExtinf ln).title
    rw [parseExtinf]
    cases hsp : (splitFirstComma ln).2 with
    | none => simp; intro c hc; cases hc
    | some t =>
      simp only
      intro c hc
      exact hnb c (splitFirstComma_snd_subset hsp c (mem_pyStrip hc))
  · show ∀ c ∈ (parseExtinf ln).duration, isDurChar c = true
    rw [parseExtinf]
    exact durOf_all_durChar _
  · show ((parseExtinf ln).attrs.map Prod.fst).Nodup
    rw [parseExtinf]
    exact dictOf_keys_nodup _
  · show ∀ p ∈ (parseExtinf ln).attrs, _
    rw [parseExtinf]
    intro p hp
    have hmem := dictOf_subset p hp
    rw [findAttrs] at hmem
    obtain ⟨h1, h2, h3⟩ := findAttrsF_sound _ _ p hmem
    refine ⟨h1, h2, ?_⟩
    intro c hc
    obtain ⟨hdq, hcin⟩ := h3 c hc
    have hinln : c ∈ ln := splitFirstComma_fst_subset c hcin
    refine ⟨hdq, ?_, hnb c hinln⟩
    intro hcomma
    subst hcomma
    exact splitFirstComma_fst_no_comma ln hcin

theorem parseLinesF_wf : ∀ (fuel : Nat) (lines : List Str), (∀ l ∈ lines, noBreakStr l) →
    (∀ ch ∈ parseLinesF fuel lines, WFchan ch) ∧ lastOnlyEmptyUrl (parseLinesF fuel lines) := by
  intro fuel
  induction fuel with
  | zero =>
    intro lines _
    rw [parseLinesF]
    exact ⟨fun ch hch => absurd hch (List.not_mem_nil ch), trivial⟩
  | succ fuel ih =>
    intro lines hnb
    cases lines with
    | nil =>
      rw [parseLinesF_nil]
      exact ⟨fun ch hch => absurd hch (List.not_mem_nil ch), trivial⟩
    | cons l ls =>
      have hnbl : noBreakStr (pyStrip l) := fun c hc => hnb l (by simp) c (mem_pyStrip hc)
      have hnbls : ∀ x ∈ ls, noBreakStr x := fun x hx => hnb x (by simp [hx])
      by_cases hc : pyStrip l = []
      · rw [parseLinesF]
        simp only [hc, if_true]
        exact ih ls hnbls
      · by_cases hext : isExtinfLine (pyStrip l) = true
        · rw [parseLinesF]
          simp only [if_neg hc, hext, if_true]
          have hsnd : ∀ x ∈ (findUrlSplit ls).2, noBreakStr x :=
            fun x hx => hnbls x (findUrlSplit_snd_subset x hx)
          obtain ⟨ihwf, ihlast⟩ := ih (findUrlSplit ls).2 hsnd
          have hurl := findUrlSplit_fst_props ls
          have hwf1 : WFchan { parseExtinf (pyStrip l) with url := (findUrlSplit ls).1 } := by
            refine parseExtinf_wf hnbl _ ?_
            rcases hurl with h | ⟨h1, h2, h3, l', hl', h4⟩
            · exact Or.inl h
            · exact Or.inr ⟨h1, h2, h3, fun c hcm =>
                hnbls l' hl' c (h4 c hcm)⟩
          constructor
          · intro ch hch
            rcases List.mem_cons.mp hch with rfl | hch
            · exact hwf1
            · exact ihwf ch hch
          · rw [lastOnlyEmptyUrl]
            refine ⟨?_, ihlast⟩
            by_cases hu : (findUrlSplit ls).1 = []
            · rw [findUrlSplit_fst_nil hu, parseLinesF_nil]
              exact Or.inl rfl
            · exact Or.inr hu
        · rw [parseLinesF]
          simp only [if_neg hc, hext, if_false]
          exact ih ls hnbls

/-! ### The serialized line of a well-formed channel -/

/-- The header segment (everything before the title comma) that
`build_extinf_line` emits. -/
def headerOf (ch : Channel) : Str :=
  if ch.attrs = [] then str "#EXTINF:" ++ ch.duration
  else (str "#EXTINF:" ++ ch.duration) ++ (' ' :: attrsJoin ch.attrs)

theorem map_noquote_id {v : Str} (hv : ∀ c ∈ v, c ≠ dquote) :
    v.map (fun c => if c = dquote then apos else c) = v := by
  conv_rhs => rw [← List.map_id v]
  apply List.map_congr_left
  intro c hc
  simp [hv c hc]

theorem build_extinf_eq {ch : Channel}
    (hwf : ∀ p ∈ ch.attrs, p.1 ≠ [] ∧ (∀ c ∈ p.1, isKeyChar c = true) ∧
      (∀ c ∈ p.2, c ≠ dquote ∧ c ≠ ',' ∧ isLineBreakChar c = false)) :
    build_extinf_line ch = headerOf ch ++ (',' :: ch.title) := by
  have hmap : ch.attrs.map (fun p =>
      p.1 ++ ('=' :: dquote :: ((p.2.map (fun c => if c = dquote then apos else c)) ++ [dquote]))) =
      ch.attrs.map attrText := by
    apply List.map_congr_left
    intro p hp
    rw [attrText, map_noquote_id (fun c hc => ((hwf p hp).2.2 c hc).1)]
  simp only [build_extinf_line, hmap]
  have hjs : joinSpace (ch.attrs.map attrText) = attrsJoin ch.attrs := rfl
  rw [hjs]
  by_cases ha : ch.attrs = []
  · rw [if_pos (by rw [ha]; rfl), headerOf, if_pos ha]
  · rw [if_neg (attrsJoin_ne_nil ha (fun p hp => (hwf p hp).1)), headerOf, if_neg ha]

theorem mem_headerOf {c : Char} {ch : Channel} (h : c ∈ headerOf ch) :
    c ∈ str "#EXTINF:" ∨ c ∈ ch.duration ∨ c = ' ' ∨ c = '=' ∨ c = dquote ∨
    (∃ p ∈ ch.attrs, c ∈ p.1) ∨ (∃ p ∈ ch.attrs, c ∈ p.2) := by
  rw [headerOf] at h
  split at h
  · rcases List.mem_append.mp h with h1 | h2
    · exact Or.inl h1
    · exact Or.inr (Or.inl h2)
  · rcases List.mem_append.mp h with h1 | h2
    · rcases List.mem_append.mp h1 with h3 | h4
      · exact Or.inl h3
      · exact Or.inr (Or.inl h4)
    · rcases List.mem_cons.mp h2 with rfl | h3
      · exact Or.inr (Or.inr (Or.inl rfl))
      · rcases mem_joinSpace h3 with rfl | ⟨x, hx, hcx⟩
        · exact Or.inr (Or.inr (Or.inl rfl))
        · rcases List.mem_map.mp hx with ⟨p, hp, rfl⟩
          rcases mem_attrText hcx with h4 | h5 | h6 | h7
          · exact Or.inr (Or.inr (Or.inr (Or.inr (Or.inr (Or.inl ⟨p, hp, h4⟩)))))
          · exact Or.inr (Or.inr (Or.inr (Or.inl h5)))
          · exact Or.inr (Or.inr (Or.inr (Or.inr (Or.inl h6))))
          · exact Or.inr (Or.inr (Or.inr (Or.inr (Or.inr (Or.inr ⟨p, hp, h7⟩)))))

theorem headerOf_no_comma {ch : Channel} (hwf : WFchan ch) : ',' ∉ headerOf ch := by
  obtain ⟨_, _, hdur, _, hpairs, _⟩ := hwf
  intro h
  rcases mem_headerOf h with h1 | h2 | h3 | h4 | h5 | ⟨p, hp, h6⟩ | ⟨p, hp, h7⟩
  · exact absurd h1 (by decide)
  · exact durChar_ne_comma (hdur ',' h2) rfl
  · exact absurd h3 (by decide)
  · exact absurd h4 (by decide)
  · exact absurd h5 (by decide)
  · exact keyChar_ne_comma ((hpairs p hp).2.1 ',' h6) rfl
  · exact ((hpairs p hp).2.2 ',' h7).2.1 rfl

theorem headerOf_no_break {ch : Channel} (hwf : WFchan ch) {c : Char} (h : c ∈ headerOf ch) :
    isLineBreakChar c = false := by
  obtain ⟨_, _, hdur, _, hpairs, _⟩ := hwf
  rcases mem_headerOf h with h1 | h2 | h3 | h4 | h5 | ⟨p, hp, h6⟩ | ⟨p, hp, h7⟩
  · have hx : ∀ x ∈ str "#EXTINF:", isLineBreakChar x = false := by decide
    exact hx c h1
  · exact durChar_not_break (hdur c h2)
  · rw [h3]; decide
  · rw [h4]; decide
  · rw [h5]; decide
  · exact keyChar_not_break ((hpairs p hp).2.1 c h6)
  · exact ((hpairs p hp).2.2 c h7).2.2

theorem build_noBreak {ch : Channel} (hwf : WFchan ch) :
    noBreakStr (build_extinf_line ch) := by
  rw [build_extinf_eq hwf.2.2.2.2.1]
  intro c hc
  rcases List.mem_append.mp hc with h1 | h2
  · exact headerOf_no_break hwf h1
  · rcases List.mem_cons.mp h2 with rfl | h3
    · decide
    · exact hwf.2.1 c h3

theorem url_noBreak {ch : Channel} (hwf : WFchan ch) : noBreakStr ch.url := by
  rcases hwf.2.2.2.2.2 with h | ⟨_, _, _, h4⟩
  · rw [h]; intro c hc; cases hc
  · exact h4

theorem isExtinf_append (x : Str) : isExtinfLine (str "#EXTINF:" ++ x) = true := by
  rw [isExtinfLine, List.map_append]
  have hup : (str "#EXTINF:").map pyUpperChar = str "#EXTINF:" := by decide
  rw [hup]
  have e : str "#EXTINF:" ++ x.map pyUpperChar =
      str "#EXTINF" ++ (':' :: x.map pyUpperChar) := rfl
  rw [e]
  exact isPrefixOf_append _ _

theorem build_isExtinf {ch : Channel} (hwf : WFchan ch) :
    isExtinfLine (build_extinf_line ch) = true := by
  rw [build_extinf_eq hwf.2.2.2.2.1, headerOf]
  split
  · rw [List.append_assoc]
    exact isExtinf_append _
  · rw [List.append_assoc, List.append_assoc]
    exact isExtinf_append _

theorem build_head {ch : Channel} (hwf : WFchan ch) :
    (build_extinf_line ch).head? = some '#' := by
  rw [build_extinf_eq hwf.2.2.2.2.1, headerOf]
  split
  · rw [List.append_assoc]
    rfl
  · rw [List.append_assoc, List.append_assoc]
    rfl

theorem build_ne_nil {ch : Channel} (hwf : WFchan ch) : build_extinf_line ch ≠ [] := by
  intro h
  have := build_head hwf
  rw [h] at this
  cases this

theorem build_strip {ch : Channel} (hwf : WFchan ch) :
    pyStrip (build_extinf_line ch) = build_extinf_line ch := by
  refine pyStrip_eq_self ?_ ?_
  · intro c hc
    rw [build_head hwf] at hc
    cases hc
    decide
  · intro c hc
    rw [build_extinf_eq hwf.2.2.2.2.1] at hc
    rw [reverse_head?_append (by simp)] at hc
    cases htitle : ch.title with
    | nil =>
      rw [htitle] at hc
      simp at hc
      subst hc
      decide
    | cons d t =>
      have e : (',' :: ch.title) = [','] ++ ch.title := rfl
      rw [e, reverse_head?_append (by rw [htitle]; simp)] at hc
      exact pyStrip_self_last hwf.1 c hc

theorem build_split {ch : Channel} (hwf : WFchan ch) :
    splitFirstComma (build_extinf_line ch) = (headerOf ch, some ch.title) := by
  rw [build_extinf_eq hwf.2.2.2.2.1]
  exact splitFirstComma_append ch.title (headerOf_no_comma hwf)

theorem parseExtinf_build {ch : Channel} (hwf : WFchan ch) :
    (parseExtinf (build_extinf_line ch)).title = ch.title ∧
    (parseExtinf (build_extinf_line ch)).duration = ch.duration ∧
    (parseExtinf (build_extinf_line ch)).attrs = ch.attrs := by
  have ht1 := hwf.1
  have hdur := hwf.2.2.1
  have hknd := hwf.2.2.2.1
  have hpairs := hwf.2.2.2.2.1
  have hsplit := build_split hwf
  refine ⟨?_, ?_, ?_⟩
  · rw [parseExtinf]
    simp only [hsplit]
    exact ht1
  · rw [parseExtinf]
    simp only [hsplit]
    show durOf (headerOf ch) = ch.duration
    rw [headerOf]
    split
    · conv_lhs => rw [← List.append_nil ch.duration]
      exact durOf_canonical [] hdur (fun d hd => by cases hd)
    · rw [List.append_assoc]
      exact durOf_canonical (' ' :: attrsJoin ch.attrs) hdur
        (fun d hd => by cases hd; decide)
  · rw [parseExtinf]
    simp only [hsplit]
    show dictOf (findAttrs (headerOf ch)) = ch.attrs
    rw [headerOf]
    split
    · next ha =>
      rw [findAttrs, findAttrsF_header_nodur ch.duration hdur _ le_rfl, ha]
      rfl
    · rw [findAttrs, findAttrsF_header_attrs ch.duration ch.attrs hdur
        (fun p hp => ⟨(hpairs p hp).1, (hpairs p hp).2.1,
          fun c hc => ((hpairs p hp).2.2 c hc).1⟩) _ le_rfl]
      exact dictOf_eq_self hknd

/-! ### Lines of the serialized document -/

/-- The line sequence of the rebuilt document after the `#EXTM3U` header. -/
def serializeLines (channels : List Channel) : List Str :=
  (channels.map (fun ch => [build_extinf_line ch, ch.url])).flatten

theorem splitlines_blocks : ∀ (channels : List Channel), (∀ ch ∈ channels, WFchan ch) →
    splitlines ((channels.map (fun ch =>
      build_extinf_line ch ++ ('\n' :: (ch.url ++ ['\n'])))).flatten) =
    serializeLines channels := by
  intro channels
  induction channels with
  | nil => intro _; rfl
  | cons ch rest ih =>
    intro hwf
    have hwfch := hwf ch (by simp)
    rw [List.map_cons, List.flatten_cons]
    have e : (build_extinf_line ch ++ ('\n' :: (ch.url ++ ['\n']))) ++
        ((rest.map (fun ch => build_extinf_line ch ++ ('\n' :: (ch.url ++ ['\n'])))).flatten) =
        build_extinf_line ch ++ ('\n' :: (ch.url ++ ('\n' ::
          ((rest.map (fun ch => build_extinf_line ch ++ ('\n' :: (ch.url ++ ['\n'])))).flatten)))) := by
      simp [List.append_assoc]
    rw [e, splitlines_cons_line _ (build_noBreak hwfch),
      splitlines_cons_line _ (url_noBreak hwfch), ih (fun x hx => hwf x (by simp [hx]))]
    rfl

theorem splitlines_create {channels : List Channel} (hwf : ∀ ch ∈ channels, WFchan ch) :
    splitlines (create_m3u_from_channels channels) = str "#EXTM3U" :: serializeLines channels := by
  rw [create_m3u_from_channels, splitlines_cons_line _
    (by show ∀ c ∈ str "#EXTM3U", isLineBreakChar c = false; decide)]
  rw [splitlines_blocks channels hwf]

theorem serializeLines_noBreak {channels : List Channel} (hwf : ∀ ch ∈ channels, WFchan ch) :
    ∀ l ∈ serializeLines channels, noBreakStr l := by
  intro l hl
  rw [serializeLines] at hl
  rcases List.mem_flatten.mp hl with ⟨block, hb, hlb⟩
  rcases List.mem_map.mp hb with ⟨ch, hch, rfl⟩
  rcases List.mem_cons.mp hlb with rfl | h2
  · exact build_noBreak (hwf ch hch)
  · rcases List.mem_cons.mp h2 with rfl | h3
    · exact url_noBreak (hwf ch hch)
    · cases h3

/-- Field equality on the four payload fields of a channel record: the
original raw EXTINF line is excluded. -/
def fieldEq (a b : Channel) : Prop :=
  a.title = b.title ∧ a.duration = b.duration ∧ a.attrs = b.attrs ∧ a.url = b.url

theorem parseLinesF_serializeLines : ∀ (channels : List Channel) (fuel : Nat),
    (serializeLines channels).length ≤ fuel →
    (∀ ch ∈ channels, WFchan ch) → lastOnlyEmptyUrl channels →
    List.Forall₂ fieldEq (parseLinesF fuel (serializeLines channels)) channels := by
  intro channels
  induction channels with
  | nil =>
    intro fuel _ _ _
    rw [show serializeLines [] = [] from rfl, parseLinesF_nil]
    exact List.Forall₂.nil
  | cons ch rest ih =>
    intro fuel hlen hwf hlast
    have hwfch := hwf ch (by simp)
    have hser : serializeLines (ch :: rest) =
        build_extinf_line ch :: ch.url :: serializeLines rest := by
      simp [serializeLines]
    rw [hser] at hlen ⊢
    obtain ⟨f, rfl⟩ : ∃ f, fuel = f + 1 :=
      ⟨fuel - 1, by simp only [List.length_cons] at hlen; omega⟩
    have hstrip := build_strip hwfch
    have hne : pyStrip (build_extinf_line ch) ≠ [] := by
      rw [hstrip]
      exact build_ne_nil hwfch
    have hext : isExtinfLine (pyStrip (build_extinf_line ch)) = true := by
      rw [hstrip]
      exact build_isExtinf hwfch
    rw [parseLinesF]
    rw [if_neg hne, if_pos hext, hstrip]
    by_cases hu : ch.url = []
    · have hrest : rest = [] := by
        rcases hlast.1 with h | h
        · exact h
        · exact absurd hu h
      subst hrest
      have hfu : findUrlSplit (ch.url :: serializeLines ([] : List Channel)) = ([], []) := by
        rw [hu]
        rfl
      rw [hfu]
      simp only [parseLinesF_nil]
      refine List.Forall₂.cons ?_ List.Forall₂.nil
      obtain ⟨e1, e2, e3⟩ := parseExtinf_build hwfch
      exact ⟨by simpa using e1, by simpa using e2, by simpa using e3, by simp [hu]⟩
    · rcases hwfch.2.2.2.2.2 with h | ⟨hu1, hu2, hu3, _⟩
      · exact absurd h hu
      have hfu : findUrlSplit (ch.url :: serializeLines rest) =
          (ch.url, serializeLines rest) := by
        rw [findUrlSplit]
        simp only [hu1]
        rw [if_neg (by rw [not_or]; exact ⟨hu2, hu3⟩)]
      rw [hfu]
      refine List.Forall₂.cons ?_ ?_
      · obtain ⟨e1, e2, e3⟩ := parseExtinf_build hwfch
        exact ⟨by simpa using e1, by simpa using e2, by simpa using e3, by simp⟩
      · refine ih f ?_ (fun x hx => hwf x (by simp [hx])) hlast.2
        simp only [List.length_cons] at hlen
        omega

/-- C1: for every M3U text, parsing the rebuilt document produced by
`create_m3u_from_channels` on the records of `parse_m3u_to_json` yields
records field-equal to the original parse on duration, title, url and attrs
(raw_extinf excluded). -/
theorem c1_parse_serialize_roundtrip (text : Str) :
    List.Forall₂ fieldEq
      (parse_m3u_to_json (create_m3u_from_channels (parse_m3u_to_json text)))
      (parse_m3u_to_json text) := by
  have hlines : ∀ l ∈ (splitlines text).map (fun l => pyRstrip isNewline l), noBreakStr l := by
    intro l hl
    rcases List.mem_map.mp hl with ⟨l0, hl0, rfl⟩
    intro c hc
    exact splitlines_mem_no_break l0 hl0 c (mem_pyRstrip hc)
  obtain ⟨hwf, hlast⟩ := parseLinesF_wf
    ((splitlines text).map (fun l => pyRstrip isNewline l)).length
    ((splitlines text).map (fun l => pyRstrip isNewline l)) hlines
  have hwf' : ∀ ch ∈ parse_m3u_to_json text, WFchan ch := hwf
  have hlast' : lastOnlyEmptyUrl (parse_m3u_to_json text) := hlast
  have hsplit := splitlines_create hwf'
  have hmapid : (splitlines (create_m3u_from_channels (parse_m3u_to_json text))).map
      (fun l => pyRstrip isNewline l) =
      str "#EXTM3U" :: serializeLines (parse_m3u_to_json text) := by
    rw [hsplit, List.map_cons]
    rw [show pyRstrip isNewline (str "#EXTM3U") = str "#EXTM3U" from by decide]
    congr 1
    conv_rhs => rw [← List.map_id (serializeLines (parse_m3u_to_json text))]
    apply List.map_congr_left
    intro l hl
    exact pyRstrip_isNewline_eq_self (serializeLines_noBreak hwf' l hl)
  show List.Forall₂ fieldEq
    (parseLinesF ((splitlines (create_m3u_from_channels (parse_m3u_to_json text))).map
      (fun l => pyRstrip isNewline l)).length
      ((splitlines (create_m3u_from_channels (parse_m3u_to_json text))).map
        (fun l => pyRstrip isNewline l)))
    (parse_m3u_to_json text)
  rw [hmapid]
  rw [show (str "#EXTM3U" :: serializeLines (parse_m3u_to_json text)).length =
    (serializeLines (parse_m3u_to_json text)).length + 1 from rfl]
  rw [parseLinesF]
  rw [if_neg (by decide), if_neg (by decide)]
  exact parseLinesF_serializeLines (parse_m3u_to_json text) _ le_rfl hwf' hlast'
